import Mathlib

/-! LocalSession: single-slot request handoff

A shallow embedding of `lib/xpedite/framework/session/LocalSession.H`.

* The atomic pointer `_request` is an `Option RequestPtr`: `none` is `nullptr`,
  `some r` is the address of a request object.
* `poll`, `isAlive`, `start`, `shutdown` and the constructor are functions on
  the session state.
* `execute` blocks the calling thread in two loops while other threads run, so
  it is embedded as a program-counter machine (`Submitter.step`): every step
  performs at most one access to shared state (the compare-exchange of line 48,
  the load of line 56, the calls on the request object of lines 62 and 65).
  `runExecute` interleaves these steps with the operations of the other threads.
* Calls made on request objects and critical log lines are recorded in the
  session state (`calls`, `log`), oldest first.
* `System` is the whole program: the session, the poller thread, whose call of
  `poll` moves by single steps as well (`Poller.step`: load, call, flag write,
  store, return), and one call of `execute` per submitter thread; `System.run`
  interleaves the steps of all threads by a schedule.
-/

namespace xpedite.framework.session

/-- Modelled from the spec: the type `MilliSeconds` is declared outside
`LocalSession.H`. The spec's data model describes a duration as a non-negative
time quantity, so a duration is a natural number of milliseconds. The width of
its representation is not visible in this file, and no wrap-around of `elapsed`
is modelled. -/
abbrev MilliSeconds := Nat

/-- The address of a request object, the value of a non-null `request::Request*`.
Two pointers are the same request exactly when the addresses are equal. -/
abbrev RequestPtr := Nat

/-- A call made on a request object through its pointer. -/
inductive Call where
  | execute (request : RequestPtr)
  | abort (request : RequestPtr) (reason : String)
deriving DecidableEq, Repr

/-- The request a call was made on. -/
def Call.request : Call → RequestPtr
  | .execute r => r
  | .abort r _ => r

/-- Modelled from the spec: the class `Handler` is declared outside
`LocalSession.H`; the session only reads its configured `pollInterval()`. -/
structure Handler where
  pollInterval : MilliSeconds
deriving DecidableEq, Repr

/-- Modelled from the spec: `request::Request` is declared outside
`LocalSession.H`. Its `response()` is a boolean-evaluable result that
is set only by `execute` or `abort`, so its boolean value is a function of the
calls made so far and of the request asked. -/
abbrev Response := List Call → RequestPtr → Bool

/-- The state of a `LocalSession` object, with the record of the calls it made
on request objects and of the critical log lines it wrote. -/
structure LocalSession where
  _request : Option RequestPtr
  _handler : Handler
  _isAlive : Bool
  calls : List Call
  log : List String
deriving DecidableEq, Repr

/-- Source lines 30-35. -/
def hasTimedOut (duration_ elapsed_ : MilliSeconds) : Bool :=
  if duration_ = 0 then
    false
  else
    decide (elapsed_ > duration_)

/-- The constructor, source lines 39-41. -/
def LocalSession.new (handler_ : Handler) : LocalSession :=
  { _request := none, _handler := handler_, _isAlive := false, calls := [], log := [] }

/-- Source lines 68-69. -/
def LocalSession.start (s : LocalSession) : LocalSession :=
  s

/-- Source lines 71-73. -/
def LocalSession.isAlive (s : LocalSession) : Bool :=
  s._isAlive

/-- The reason text of source line 81, as spelled there. -/
def pollAbortReason : String :=
  "xpedite dectected active session - multiple sessions not supported"

/-- Source lines 75-86: the returned flag and the state after the call. -/
def LocalSession.poll (canAcceptRequest_ : Bool) (s : LocalSession) : Bool × LocalSession :=
  match s._request with
  | some request =>
    let s1 : LocalSession :=
      if canAcceptRequest_ then
        { s with calls := s.calls ++ [Call.execute request], _isAlive := true }
      else
        { s with calls := s.calls ++ [Call.abort request pollAbortReason] }
    let s2 : LocalSession := { s1 with _request := none }
    (s2.isAlive, s2)
  | none => (s.isAlive, s)

/-- The line written by source line 90. -/
def shutdownLogLine : String :=
  "xpedite - local session - framework is going down."

/-- Source lines 88-92. -/
def LocalSession.shutdown (s : LocalSession) : LocalSession :=
  if s.isAlive then
    { s with log := s.log ++ [shutdownLogLine] }
  else
    s

/-- The reason text of source line 62. -/
def timedOutReason : String :=
  "timed out"

/-- Where a thread running `execute` stands. -/
inductive Pc where
  /-- At the head of the enqueue loop, line 46. -/
  | enqueue
  /-- At the head of the await loop, line 56. -/
  | await
  /-- At the timeout check of line 61. -/
  | result
  /-- The call has returned this value. -/
  | returned (value : Bool)
deriving DecidableEq, Repr

/-- What a thread running `execute` did, in order. -/
inductive Event where
  /-- The compare-exchange of line 48 succeeded. -/
  | published
  /-- The compare-exchange of line 48 failed. -/
  | publishFailed
  /-- The load of line 56 returned `request_`. -/
  | stillPending
  /-- The load of line 56 returned something else. -/
  | cleared
  /-- One `sleep_for(pollInterval())` with `elapsed += pollInterval()`. -/
  | slept
  /-- The call `request_->abort("timed out")` of line 62. -/
  | aborted
  /-- The call `request_->response()` of line 65. -/
  | responseRead
deriving DecidableEq, Repr

/-- The local state of one call of `execute`: its two arguments, the local
`elapsed`, the program counter, and the record of what it did so far. -/
structure Submitter where
  request_ : RequestPtr
  timeout_ : MilliSeconds
  elapsed : MilliSeconds
  pc : Pc
  trace : List Event
deriving DecidableEq, Repr

/-- Entry of `execute(request_, timeout_)`, source line 44. -/
def Submitter.enter (request_ : RequestPtr) (timeout_ : MilliSeconds) : Submitter :=
  { request_ := request_, timeout_ := timeout_, elapsed := 0, pc := Pc.enqueue, trace := [] }

/-- One step of `execute`, source lines 46-65. `spurious` tells whether this
`compare_exchange_weak` fails although the slot holds the expected `nullptr`,
which the weak form is allowed to do. -/
def Submitter.step (response : Response) (spurious : Bool) (t : Submitter) (s : LocalSession) :
    Submitter × LocalSession :=
  match t.pc with
  | Pc.enqueue =>
    if hasTimedOut t.timeout_ t.elapsed then
      ({ t with pc := Pc.await }, s)
    else if s._request = none ∧ spurious = false then
      ({ t with pc := Pc.await, trace := t.trace ++ [Event.published] },
       { s with _request := some t.request_ })
    else
      ({ t with elapsed := t.elapsed + s._handler.pollInterval,
                trace := t.trace ++ [Event.publishFailed, Event.slept] }, s)
  | Pc.await =>
    if hasTimedOut t.timeout_ t.elapsed then
      ({ t with pc := Pc.result }, s)
    else if s._request = some t.request_ then
      ({ t with elapsed := t.elapsed + s._handler.pollInterval,
                trace := t.trace ++ [Event.stillPending, Event.slept] }, s)
    else
      ({ t with pc := Pc.result, trace := t.trace ++ [Event.cleared] }, s)
  | Pc.result =>
    if hasTimedOut t.timeout_ t.elapsed then
      ({ t with pc := Pc.returned false, trace := t.trace ++ [Event.aborted] },
       { s with calls := s.calls ++ [Call.abort t.request_ timedOutReason] })
    else
      ({ t with pc := Pc.returned (response s.calls t.request_),
                trace := t.trace ++ [Event.responseRead] }, s)
  | Pc.returned _ => (t, s)

/-- One action on the session by some thread other than the one whose call of
`execute` is followed: a step of some other call of `execute`, or a whole call
of one of the other member functions. The spec has a single poller thread, and
nothing changes an occupied slot but `poll` itself, so for the thread that is
followed a call of `poll` shows as one action; `System` below runs `poll` by
single steps. -/
inductive Op where
  | submit (t : Submitter) (spurious : Bool)
  | poll (canAcceptRequest_ : Bool)
  | start
  | isAlive
  | shutdown
deriving DecidableEq, Repr

/-- The session state after an action. -/
def Op.apply (response : Response) : Op → LocalSession → LocalSession
  | Op.submit t spurious, s => (t.step response spurious s).2
  | Op.poll canAcceptRequest_, s => (s.poll canAcceptRequest_).2
  | Op.start, s => s.start
  | Op.isAlive, s => s
  | Op.shutdown, s => s.shutdown

/-- The session state after a sequence of actions, first to last. -/
def applyAll (response : Response) (ops : List Op) (s : LocalSession) : LocalSession :=
  ops.foldl (fun acc op => op.apply response acc) s

/-- One tick of a call of `execute` running among other threads: the actions
`others` of the other threads take effect, then the call takes one step. A call
that has returned does nothing more. -/
def tick (response : Response) (others : List Op) (spurious : Bool)
    (c : Submitter × LocalSession) : Submitter × LocalSession :=
  match c.1.pc with
  | Pc.returned _ => c
  | _ => c.1.step response spurious (applyAll response others c.2)

/-- The call of `execute` after `n` ticks: `env k` are the actions of the other
threads before its step number `k`, and `weak k` tells whether that step's
compare-exchange fails spuriously. -/
def runExecute (response : Response) (env : Nat → List Op) (weak : Nat → Bool) :
    Nat → Submitter × LocalSession → Submitter × LocalSession
  | 0, c => c
  | n + 1, c => tick response (env n) (weak n) (runExecute response env weak n c)

/-- The environment in which no other thread does anything. -/
def quiet : Nat → List Op :=
  fun _ => []

/-- No spurious failure of the compare-exchange. -/
def strong : Nat → Bool :=
  fun _ => false

/-- A response that is truthy once the request has been executed. -/
def executedResponse : Response :=
  fun calls r => decide (Call.execute r ∈ calls)

/-- How many steps of `execute` other than sleeps are still ahead at most. -/
def Pc.rank : Pc → Nat
  | Pc.enqueue => 3
  | Pc.await => 2
  | Pc.result => 1
  | Pc.returned _ => 0

/-- How many more sleeps fit before `hasTimedOut timeout_ elapsed` holds, for
a nonzero timeout and poll interval. -/
def sleepsLeft (timeout_ pollInterval elapsed : MilliSeconds) : Nat :=
  if elapsed ≤ timeout_ then (timeout_ - elapsed) / pollInterval + 1 else 0

/-- Whether the action is a call of `poll`. -/
def Op.isPoll : Op → Bool
  | Op.poll _ => true
  | _ => false

/-- Whether the action is a step of a call of `execute` on request `r`. -/
def Op.submits (r : RequestPtr) : Op → Bool
  | Op.submit t _ => decide (t.request_ = r)
  | _ => false

/-- The calls made on request `r`, oldest first. -/
def callsOn (r : RequestPtr) (calls : List Call) : List Call :=
  calls.filter (fun c => decide (c.request = r))

/-- A freshly constructed session whose handler has a poll interval of 10 ms. -/
def freshSession : LocalSession :=
  LocalSession.new { pollInterval := 10 }

/-- A session with a poll interval of 10 ms whose slot holds request 7. -/
def pendingSession : LocalSession :=
  { freshSession with _request := some 7 }

/-- What holds of a call of `execute(r, T)` and the session at every tick when
no other thread polls. -/
def TimeoutInv (r : RequestPtr) (T : MilliSeconds) (c : Submitter × LocalSession) : Prop :=
  c.1.request_ = r ∧ c.1.timeout_ = T ∧
  c.1.trace.count Event.responseRead = 0 ∧
  match c.1.pc with
  | Pc.enqueue => c.1.trace.count Event.aborted = 0
  | Pc.await =>
    c.1.trace.count Event.aborted = 0 ∧
      (hasTimedOut T c.1.elapsed = true ∨ c.2._request = some r)
  | Pc.result => c.1.trace.count Event.aborted = 0 ∧ hasTimedOut T c.1.elapsed = true
  | Pc.returned b =>
    b = false ∧ c.1.trace.count Event.aborted = 1 ∧ hasTimedOut T c.1.elapsed = true

/-- What holds of the calls made on `r` at every tick of a call of
`execute(r, T)` when no other thread polls or submits `r`: `base` are the calls
made on `r` before the call began. -/
def CallsInv (r : RequestPtr) (T : MilliSeconds) (base : List Call)
    (c : Submitter × LocalSession) : Prop :=
  c.1.request_ = r ∧ c.1.timeout_ = T ∧
  match c.1.pc with
  | Pc.returned _ =>
    callsOn r c.2.calls =
      if hasTimedOut T c.1.elapsed then base ++ [Call.abort r timedOutReason] else base
  | _ => callsOn r c.2.calls = base

/-- What holds of a call of `execute(r, T)` and the session at every tick,
whatever the other threads do. -/
def ReturnInv (response : Response) (r : RequestPtr) (T : MilliSeconds)
    (c : Submitter × LocalSession) : Prop :=
  c.1.request_ = r ∧ c.1.timeout_ = T ∧
  match c.1.pc with
  | Pc.returned b =>
    (hasTimedOut T c.1.elapsed = true ∧ b = false ∧ c.1.trace.count Event.aborted = 1) ∨
    (hasTimedOut T c.1.elapsed = false ∧ b = response c.2.calls r ∧
      c.1.trace.count Event.aborted = 0)
  | _ => c.1.trace.count Event.aborted = 0

/-- What holds of a call of `execute(r, T)` and the session at every tick when
no other thread submits `r`. -/
def HandoffInv (r : RequestPtr) (T : MilliSeconds) (c : Submitter × LocalSession) : Prop :=
  c.1.request_ = r ∧ c.1.timeout_ = T ∧
  match c.1.pc with
  | Pc.result => hasTimedOut T c.1.elapsed = true ∨ c.2._request ≠ some r
  | Pc.returned _ => hasTimedOut T c.1.elapsed = true ∨ c.2._request ≠ some r
  | _ => True

/-- The other threads poll once, with `canAcceptRequest_`, before step `k` of
the call and do nothing else. -/
def pollOnceAt (k : Nat) (canAcceptRequest_ : Bool) : Nat → List Op :=
  fun i => if i = k then [Op.poll canAcceptRequest_] else []

/-- Step number `i` of the run published the request of the call: it stood at
the enqueue loop, found the slot empty, its compare-exchange did not fail
spuriously, and the slot held the request right after. -/
def PublishedAt (response : Response) (env : Nat → List Op) (weak : Nat → Bool)
    (c : Submitter × LocalSession) (i : Nat) : Prop :=
  (runExecute response env weak i c).1.pc = Pc.enqueue ∧
  (applyAll response (env i) (runExecute response env weak i c).2)._request = none ∧
  weak i = false ∧
  (runExecute response env weak (i + 1) c).2._request = some c.1.request_

/-- Step number `j` of the run stood at the await loop and loaded from the slot
something other than the request of the call. -/
def ClearedAt (response : Response) (env : Nat → List Op) (weak : Nat → Bool)
    (c : Submitter × LocalSession) (j : Nat) : Prop :=
  (runExecute response env weak j c).1.pc = Pc.await ∧
  (applyAll response (env j) (runExecute response env weak j c).2)._request ≠ some c.1.request_

/-- Before step number `k` of the run another thread called `poll` while the
slot held the request of the call. -/
def PolledAt (response : Response) (env : Nat → List Op) (weak : Nat → Bool)
    (c : Submitter × LocalSession) (k : Nat) : Prop :=
  ∃ pre b post, env k = pre ++ Op.poll b :: post ∧
    (applyAll response pre (runExecute response env weak k c).2)._request = some c.1.request_

/-- What holds after `n` ticks of a call of `execute` with timeout zero. -/
def ZeroInv (response : Response) (env : Nat → List Op) (weak : Nat → Bool)
    (c : Submitter × LocalSession) (n : Nat) : Prop :=
  ((runExecute response env weak n c).1.pc = Pc.await →
    ∃ i, i < n ∧ PublishedAt response env weak c i ∧
      ((runExecute response env weak n c).2._request = some c.1.request_ ∨
        ∃ k, i < k ∧ k < n ∧ PolledAt response env weak c k)) ∧
  (((runExecute response env weak n c).1.pc = Pc.result ∨
      ∃ b, (runExecute response env weak n c).1.pc = Pc.returned b) →
    ∃ i j, i < j ∧ j < n ∧ PublishedAt response env weak c i ∧
      ClearedAt response env weak c j ∧
      ∃ k, i < k ∧ k ≤ j ∧ PolledAt response env weak c k)

/-- Where the poller thread stands in a call of `poll`. -/
inductive PollPc where
  /-- Outside `poll`: the next step enters it and does the load of line 76. -/
  | idle
  /-- At line 77, the load of line 76 having returned this non-null request. -/
  | call (request : RequestPtr) (canAcceptRequest_ : Bool)
  /-- At line 79, after `request->execute(_handler)` of line 78. -/
  | flag (request : RequestPtr)
  /-- At the store of line 83, after line 79 or line 81. -/
  | clear (request : RequestPtr)
  /-- At the return of line 85. -/
  | leave
deriving DecidableEq, Repr

/-- The local state of the poller thread: where it stands, the calls the call
of `poll` in progress has made on request objects so far, and the value the
last completed call of `poll` returned. -/
structure Poller where
  pc : PollPc
  made : List Call
  result : Option Bool
deriving DecidableEq, Repr

/-- The poller thread before its first call of `poll`. -/
def Poller.start : Poller :=
  { pc := PollPc.idle, made := [], result := none }

/-- One step of the poller thread, source lines 75-86, each with one access to
the session: entering `poll(canAcceptRequest_)` with the load of line 76, the
call of line 78 or of line 81, the write of line 79, the store of line 83, the
return of line 85. Inside a call the argument is the one the call was entered
with, kept in the program counter. -/
def Poller.step (canAcceptRequest_ : Bool) (q : Poller) (s : LocalSession) :
    Poller × LocalSession :=
  match q.pc with
  | PollPc.idle =>
    match s._request with
    | some request => ({ q with pc := PollPc.call request canAcceptRequest_, made := [] }, s)
    | none => ({ q with pc := PollPc.leave, made := [] }, s)
  | PollPc.call request accept =>
    if accept then
      ({ q with pc := PollPc.flag request, made := q.made ++ [Call.execute request] },
       { s with calls := s.calls ++ [Call.execute request] })
    else
      ({ q with pc := PollPc.clear request,
                made := q.made ++ [Call.abort request pollAbortReason] },
       { s with calls := s.calls ++ [Call.abort request pollAbortReason] })
  | PollPc.flag request => ({ q with pc := PollPc.clear request }, { s with _isAlive := true })
  | PollPc.clear _ => ({ q with pc := PollPc.leave }, { s with _request := none })
  | PollPc.leave => ({ q with pc := PollPc.idle, result := some s.isAlive }, s)

/-- A state of the whole program: the session, the poller thread, and the calls
of `execute` in progress, one for each submitter thread. -/
structure System where
  session : LocalSession
  poller : Poller
  submitters : List Submitter
deriving DecidableEq, Repr

/-- One atomic action of one thread of the program: submitter thread `i` takes
the next step of its call of `execute`; the poller thread takes its next step,
entering `poll(canAcceptRequest_)` if it is outside `poll`; or some thread
calls `start`, `isAlive` or `shutdown`. -/
inductive Action where
  | step (i : Nat) (spurious : Bool)
  | poll (canAcceptRequest_ : Bool)
  | start
  | isAlive
  | shutdown
deriving DecidableEq, Repr

/-- The program state after an action. -/
def System.act (response : Response) (a : Action) (sys : System) : System :=
  match a with
  | Action.step i spurious =>
    match sys.submitters[i]? with
    | some t =>
      { sys with
        session := (t.step response spurious sys.session).2,
        submitters := sys.submitters.set i (t.step response spurious sys.session).1 }
    | none => sys
  | Action.poll canAcceptRequest_ =>
    { sys with
      session := (sys.poller.step canAcceptRequest_ sys.session).2,
      poller := (sys.poller.step canAcceptRequest_ sys.session).1 }
  | Action.start => { sys with session := sys.session.start }
  | Action.isAlive => sys
  | Action.shutdown => { sys with session := sys.session.shutdown }

/-- The program state after the first `n` actions of a schedule. -/
def System.run (response : Response) (schedule : Nat → Action) : Nat → System → System
  | 0, sys => sys
  | n + 1, sys => (System.run response schedule n sys).act response (schedule n)

/-- A fresh session, the poller outside `poll`, and one thread entering
`execute(request, timeout)` for each entry of `requests`. -/
def System.start (handler_ : Handler) (requests : List (RequestPtr × MilliSeconds)) : System :=
  { session := LocalSession.new handler_,
    poller := Poller.start,
    submitters := requests.map (fun q => Submitter.enter q.1 q.2) }

/-- What ties the poller to the session at every time: the calls it has made
in its current call of `poll` are among the calls recorded in the session, and
inside `poll` the request it loaded is still in the slot until its own store,
with `made` holding the one call it made on it once line 78 or line 81 is
behind. -/
def System.Coherent (sys : System) : Prop :=
  (∀ c ∈ sys.poller.made, c ∈ sys.session.calls) ∧
  match sys.poller.pc with
  | PollPc.idle => True
  | PollPc.call request _ => sys.session._request = some request ∧ sys.poller.made = []
  | PollPc.flag request =>
    sys.session._request = some request ∧ sys.poller.made = [Call.execute request]
  | PollPc.clear request =>
    sys.session._request = some request ∧
      (sys.poller.made = [Call.execute request] ∨
        sys.poller.made = [Call.abort request pollAbortReason])
  | PollPc.leave => True

/-- How many steps of the poller are left until its store of line 83, when the
slot is occupied. -/
def Poller.distance (q : Poller) : Nat :=
  match q.pc with
  | PollPc.leave => 5
  | PollPc.idle => 4
  | PollPc.call _ _ => 3
  | PollPc.flag _ => 2
  | PollPc.clear _ => 1

/-- The poller has called `execute` on `r` and has not yet cleared the slot. -/
def Poller.served (q : Poller) (r : RequestPtr) : Prop :=
  q.pc = PollPc.flag r ∨ q.pc = PollPc.clear r

/-- How far a call of `execute` that does not time out is from its return:
8 before it has published, 2 plus the distance of the poller from its store
while its request is in the slot, 2 once the slot no longer holds it, 1 at the
check of line 61, 0 when returned. -/
def Submitter.progress (t : Submitter) (s : LocalSession) (q : Poller) : Nat :=
  match t.pc with
  | Pc.enqueue => 8
  | Pc.await => if s._request = some t.request_ then 2 + q.distance else 2
  | Pc.result => 1
  | Pc.returned _ => 0

/-- What holds between a call of `execute`, the session and the poller while no
call times out and every poll accepts. -/
def Submitter.Sound (t : Submitter) (s : LocalSession) (q : Poller) : Prop :=
  match t.pc with
  | Pc.enqueue => callsOn t.request_ s.calls = [] ∧ s._request ≠ some t.request_
  | Pc.await =>
    (s._request = some t.request_ ∧ ¬ q.served t.request_ ∧
      callsOn t.request_ s.calls = []) ∨
    (s._request = some t.request_ ∧ q.served t.request_ ∧
      callsOn t.request_ s.calls = [Call.execute t.request_]) ∨
    (s._request ≠ some t.request_ ∧
      callsOn t.request_ s.calls = [Call.execute t.request_])
  | Pc.result =>
    callsOn t.request_ s.calls = [Call.execute t.request_] ∧ s._request ≠ some t.request_
  | Pc.returned _ =>
    callsOn t.request_ s.calls = [Call.execute t.request_] ∧ s._request ≠ some t.request_

/-- Inside `poll` the poller accepts and the request it loaded is in the slot. -/
def Poller.Sound (q : Poller) (s : LocalSession) : Prop :=
  match q.pc with
  | PollPc.idle => True
  | PollPc.call request accept => s._request = some request ∧ accept = true
  | PollPc.flag request => s._request = some request
  | PollPc.clear request => s._request = some request
  | PollPc.leave => True

/-- The progress of submitter thread `i`, 0 when there is no such thread. -/
def System.progressAt (sys : System) (i : Nat) : Nat :=
  match sys.submitters[i]? with
  | some t => t.progress sys.session sys.poller
  | none => 0

/-- The submitters still run the calls of `requests`, each is sound, so is the
poller, and the slot holds nothing but a request of one of the submitters. -/
def System.Sound (requests : List (RequestPtr × MilliSeconds)) (sys : System) : Prop :=
  sys.submitters.map (fun t => (t.request_, t.timeout_)) = requests ∧
  (∀ (i : Nat) (t : Submitter), sys.submitters[i]? = some t →
    t.Sound sys.session sys.poller) ∧
  sys.poller.Sound sys.session ∧
  (∀ r, sys.session._request = some r → ∃ t ∈ sys.submitters, t.request_ = r)

/-- No call of `execute` in progress has its elapsed time past its timeout. -/
def System.NoTimeout (sys : System) : Prop :=
  ∀ t ∈ sys.submitters, hasTimedOut t.timeout_ t.elapsed = false

/-- The progress of the first `n` submitter threads taken together. -/
def System.remaining (n : Nat) (sys : System) : Nat :=
  ∑ i ∈ Finset.range n, sys.progressAt i

/-- The schedule that lets submitter 0 step, then submitter 1, then the poller
step, accepting, over and over, with no spurious failure. -/
def roundRobin : Nat → Action :=
  fun k =>
    if k % 3 = 0 then Action.step 0 false
    else if k % 3 = 1 then Action.step 1 false
    else Action.poll true

/-- The schedule of poller steps only, each with the same argument. -/
def pollerOnly (canAcceptRequest_ : Bool) : Nat → Action :=
  fun _ => Action.poll canAcceptRequest_

/-- A step of `execute` leaves the liveness flag, the handler and the log as they are. -/
theorem Submitter.step_frame (response : Response) (spurious : Bool) (t : Submitter)
    (s : LocalSession) :
    (t.step response spurious s).2._isAlive = s._isAlive ∧
    (t.step response spurious s).2._handler = s._handler ∧
    (t.step response spurious s).2.log = s.log := by
  unfold Submitter.step
  split <;> (try split) <;> (try split) <;> simp

/-- An occupied slot is left as it is by a step of `execute`. -/
theorem Submitter.step_keeps_occupant (response : Response) (spurious : Bool) (t : Submitter)
    (s : LocalSession) (r : RequestPtr) (h : s._request = some r) :
    (t.step response spurious s).2._request = some r := by
  unfold Submitter.step
  split <;> (try split) <;> (try split) <;> simp_all

theorem Op.apply_isAlive (response : Response) (op : Op) (s : LocalSession)
    (h : s._isAlive = true) : (op.apply response s)._isAlive = true := by
  cases op with
  | submit t spurious => simpa [Op.apply, (Submitter.step_frame response spurious t s).1] using h
  | poll b =>
    simp only [Op.apply, LocalSession.poll]
    split <;> (try split) <;> simp_all
  | start => simpa [Op.apply, LocalSession.start] using h
  | isAlive => simpa [Op.apply] using h
  | shutdown =>
    simp only [Op.apply, LocalSession.shutdown]
    split <;> simp_all

theorem applyAll_isAlive (response : Response) (ops : List Op) (s : LocalSession)
    (h : s._isAlive = true) : (applyAll response ops s)._isAlive = true := by
  induction ops generalizing s with
  | nil => simpa [applyAll] using h
  | cons op ops ih =>
    simp only [applyAll, List.foldl_cons]
    exact ih _ (Op.apply_isAlive response op s h)

theorem applyAll_append (response : Response) (xs ys : List Op) (s : LocalSession) :
    applyAll response (xs ++ ys) s = applyAll response ys (applyAll response xs s) := by
  simp [applyAll, List.foldl_append]

theorem applyAll_cons (response : Response) (op : Op) (ops : List Op) (s : LocalSession) :
    applyAll response (op :: ops) s = applyAll response ops (op.apply response s) := by
  simp [applyAll]

/-- The only action that raises the liveness flag is `poll(true)` on an occupied slot. -/
theorem Op.apply_raises_isAlive (response : Response) (op : Op) (s : LocalSession)
    (h0 : s._isAlive = false) (h1 : (op.apply response s)._isAlive = true) :
    op = Op.poll true ∧ s._request.isSome = true := by
  cases op with
  | submit t spurious =>
    rw [Op.apply, (Submitter.step_frame response spurious t s).1, h0] at h1
    exact absurd h1 (by decide)
  | poll b =>
    simp only [Op.apply, LocalSession.poll] at h1
    cases hr : s._request with
    | none => simp [hr, LocalSession.isAlive, h0] at h1
    | some r =>
      cases b with
      | true => simp
      | false => simp [hr, h0] at h1
  | start => simp [Op.apply, LocalSession.start, h0] at h1
  | isAlive => simp [Op.apply, h0] at h1
  | shutdown =>
    simp only [Op.apply, LocalSession.shutdown, LocalSession.isAlive, h0] at h1
    simp [h0] at h1

theorem poll_true_occupied (s : LocalSession) (r : RequestPtr) (h : s._request = some r) :
    s.poll true =
      (true, { s with calls := s.calls ++ [Call.execute r], _isAlive := true, _request := none }) := by
  simp [LocalSession.poll, h, LocalSession.isAlive]

theorem poll_false_occupied (s : LocalSession) (r : RequestPtr) (h : s._request = some r) :
    s.poll false =
      (s._isAlive, { s with calls := s.calls ++ [Call.abort r pollAbortReason], _request := none }) := by
  simp [LocalSession.poll, h, LocalSession.isAlive]

theorem poll_empty (b : Bool) (s : LocalSession) (h : s._request = none) :
    s.poll b = (s._isAlive, s) := by
  simp [LocalSession.poll, h, LocalSession.isAlive]

theorem Op.apply_handler (response : Response) (op : Op) (s : LocalSession) :
    (op.apply response s)._handler = s._handler := by
  cases op with
  | submit t spurious => simp [Op.apply, (Submitter.step_frame response spurious t s).2.1]
  | poll b =>
    simp only [Op.apply, LocalSession.poll]
    split <;> (try split) <;> simp_all
  | start => simp [Op.apply, LocalSession.start]
  | isAlive => simp [Op.apply]
  | shutdown =>
    simp only [Op.apply, LocalSession.shutdown]
    split <;> simp_all

theorem applyAll_handler (response : Response) (ops : List Op) (s : LocalSession) :
    (applyAll response ops s)._handler = s._handler := by
  induction ops generalizing s with
  | nil => simp [applyAll]
  | cons op ops ih => rw [applyAll_cons, ih, Op.apply_handler]

theorem hasTimedOut_zero (elapsed_ : MilliSeconds) : hasTimedOut 0 elapsed_ = false := by
  simp [hasTimedOut]

theorem hasTimedOut_pos (duration_ elapsed_ : MilliSeconds) (h : 0 < duration_) :
    hasTimedOut duration_ elapsed_ = decide (duration_ < elapsed_) := by
  have : duration_ ≠ 0 := Nat.ne_of_gt h
  simp [hasTimedOut, this]

/-- Induction over the ticks of a run. -/
theorem runExecute_induct (response : Response) (env : Nat → List Op) (weak : Nat → Bool)
    (P : Submitter × LocalSession → Prop) (c : Submitter × LocalSession) (h0 : P c)
    (hstep : ∀ k c, P c → P (tick response (env k) (weak k) c)) (n : Nat) :
    P (runExecute response env weak n c) := by
  induction n with
  | zero => exact h0
  | succ n ih => exact hstep n _ ih

/-- A tick keeps the arguments of the call and the handler. -/
theorem tick_frame (response : Response) (others : List Op) (spurious : Bool)
    (c : Submitter × LocalSession) :
    (tick response others spurious c).1.request_ = c.1.request_ ∧
    (tick response others spurious c).1.timeout_ = c.1.timeout_ ∧
    (tick response others spurious c).2._handler = c.2._handler := by
  unfold tick
  split
  · simp
  · have hh := applyAll_handler response others c.2
    unfold Submitter.step
    split <;> (try split) <;> (try split) <;> simp [hh]

theorem runExecute_frame (response : Response) (env : Nat → List Op) (weak : Nat → Bool)
    (n : Nat) (c : Submitter × LocalSession) :
    (runExecute response env weak n c).1.request_ = c.1.request_ ∧
    (runExecute response env weak n c).1.timeout_ = c.1.timeout_ ∧
    (runExecute response env weak n c).2._handler = c.2._handler := by
  refine runExecute_induct response env weak
    (fun d => d.1.request_ = c.1.request_ ∧ d.1.timeout_ = c.1.timeout_ ∧
      d.2._handler = c.2._handler) c ⟨rfl, rfl, rfl⟩ ?_ n
  intro k d hd
  have := tick_frame response (env k) (weak k) d
  exact ⟨this.1.trans hd.1, this.2.1.trans hd.2.1, this.2.2.trans hd.2.2⟩

/-- The elapsed time is the number of sleeps times the poll interval, and with a
nonzero timeout it never passes the timeout by more than one poll interval. -/
theorem tick_elapsed (response : Response) (others : List Op) (spurious : Bool)
    (c : Submitter × LocalSession)
    (h : c.1.elapsed = c.1.trace.count Event.slept * c.2._handler.pollInterval)
    (hb : 0 < c.1.timeout_ → c.1.elapsed ≤ c.1.timeout_ + c.2._handler.pollInterval) :
    (tick response others spurious c).1.elapsed =
      (tick response others spurious c).1.trace.count Event.slept * c.2._handler.pollInterval ∧
    (0 < c.1.timeout_ →
      (tick response others spurious c).1.elapsed ≤ c.1.timeout_ + c.2._handler.pollInterval) := by
  unfold tick
  split
  · exact ⟨h, hb⟩
  · have hh := applyAll_handler response others c.2
    unfold Submitter.step
    split <;> (try split) <;> (try split) <;>
      simp_all [List.count_append, Nat.add_mul, hasTimedOut, MilliSeconds] <;> omega

theorem sleepsLeft_sleep (T p e : Nat) (hp : 0 < p) (he : e ≤ T) :
    sleepsLeft T p (e + p) + 1 ≤ sleepsLeft T p e := by
  unfold sleepsLeft
  rw [if_pos he]
  by_cases h : e + p ≤ T
  · rw [if_pos h]
    have : T - e = (T - (e + p)) + p := by omega
    rw [this, Nat.add_div_right _ hp]
  · rw [if_neg h]
    exact Nat.succ_le_succ (Nat.zero_le _)

theorem sleepsLeft_zero (T p : Nat) : sleepsLeft T p 0 = T / p + 1 := by
  simp [sleepsLeft]

/-- With a nonzero timeout and poll interval every tick of a call that has not
returned uses up one of its remaining steps. -/
theorem tick_measure (response : Response) (others : List Op) (spurious : Bool)
    (c : Submitter × LocalSession) (hT : 0 < c.1.timeout_)
    (hp : 0 < c.2._handler.pollInterval) (hpc : ∀ b, c.1.pc ≠ Pc.returned b) :
    (tick response others spurious c).1.pc.rank +
        sleepsLeft c.1.timeout_ c.2._handler.pollInterval
          (tick response others spurious c).1.elapsed + 1 ≤
      c.1.pc.rank + sleepsLeft c.1.timeout_ c.2._handler.pollInterval c.1.elapsed := by
  have hh := applyAll_handler response others c.2
  have hto := hasTimedOut_pos c.1.timeout_ c.1.elapsed hT
  unfold tick
  split
  · next b hb => exact absurd hb (hpc b)
  · unfold Submitter.step
    split
    · next hq =>
      rw [hq]
      split
      · simp only [Pc.rank]; omega
      · split
        · simp only [Pc.rank]; omega
        · next hnt _ =>
          have he : c.1.elapsed ≤ c.1.timeout_ := by
            rw [hto] at hnt; simpa using hnt
          have := sleepsLeft_sleep c.1.timeout_ c.2._handler.pollInterval c.1.elapsed hp he
          simp only [hq, hh, Pc.rank]
          omega
    · next hq =>
      rw [hq]
      split
      · simp only [Pc.rank]; omega
      · split
        · next hnt _ =>
          have he : c.1.elapsed ≤ c.1.timeout_ := by
            rw [hto] at hnt; simpa using hnt
          have := sleepsLeft_sleep c.1.timeout_ c.2._handler.pollInterval c.1.elapsed hp he
          simp only [hq, hh, Pc.rank]
          omega
        · simp only [Pc.rank]; omega
    · next hq =>
      rw [hq]
      split <;> simp only [Pc.rank] <;> omega
    · next b hb => exact absurd hb (hpc b)

theorem tick_returned (response : Response) (others : List Op) (spurious : Bool)
    (c : Submitter × LocalSession) (b : Bool) (h : c.1.pc = Pc.returned b) :
    tick response others spurious c = c := by
  unfold tick
  simp [h]

/-- A call that has returned stays as it is. -/
theorem runExecute_returned (response : Response) (env : Nat → List Op) (weak : Nat → Bool)
    (c : Submitter × LocalSession) (n : Nat) (b : Bool)
    (h : (runExecute response env weak n c).1.pc = Pc.returned b) (m : Nat) :
    runExecute response env weak (n + m) c = runExecute response env weak n c := by
  induction m with
  | zero => rfl
  | succ m ih =>
    show tick response (env (n + m)) (weak (n + m)) (runExecute response env weak (n + m) c) = _
    rw [ih]
    exact tick_returned response _ _ _ b h

/-- With a nonzero timeout and poll interval, a call has returned after
`timeout_ / pollInterval + 4` ticks, whatever the other threads do. -/
theorem runExecute_terminates (response : Response) (env : Nat → List Op) (weak : Nat → Bool)
    (s : LocalSession) (r : RequestPtr) (T : MilliSeconds) (hT : 0 < T)
    (hp : 0 < s._handler.pollInterval) (n : Nat) (hn : T / s._handler.pollInterval + 4 ≤ n) :
    ∃ b, (runExecute response env weak n (Submitter.enter r T, s)).1.pc = Pc.returned b := by
  have key : ∀ k, (∃ b, (runExecute response env weak k (Submitter.enter r T, s)).1.pc
        = Pc.returned b) ∨
      (runExecute response env weak k (Submitter.enter r T, s)).1.pc.rank +
        sleepsLeft T s._handler.pollInterval
          (runExecute response env weak k (Submitter.enter r T, s)).1.elapsed + k ≤
        T / s._handler.pollInterval + 4 := by
    intro k
    induction k with
    | zero =>
      right
      simp only [runExecute, Submitter.enter, Pc.rank, sleepsLeft_zero]
      omega
    | succ k ih =>
      have hf := runExecute_frame response env weak k (Submitter.enter r T, s)
      rcases ih with ⟨b, hb⟩ | ih
      · left
        refine ⟨b, ?_⟩
        show (tick response (env k) (weak k) _).1.pc = _
        rw [tick_returned response _ _ _ b hb]
        exact hb
      · by_cases hret : ∃ b, (runExecute response env weak k (Submitter.enter r T, s)).1.pc
            = Pc.returned b
        · obtain ⟨b, hb⟩ := hret
          left
          refine ⟨b, ?_⟩
          show (tick response (env k) (weak k) _).1.pc = _
          rw [tick_returned response _ _ _ b hb]
          exact hb
        · right
          have hT' : (runExecute response env weak k (Submitter.enter r T, s)).1.timeout_ = T :=
            hf.2.1
          have hp' : (runExecute response env weak k (Submitter.enter r T, s)).2._handler
              = s._handler := hf.2.2
          have hm := tick_measure response (env k) (weak k)
            (runExecute response env weak k (Submitter.enter r T, s))
            (by rw [hT']; exact hT) (by rw [hp']; exact hp)
            (fun b hb => hret ⟨b, hb⟩)
          rw [hT', hp'] at hm
          show (tick response (env k) (weak k) _).1.pc.rank +
            sleepsLeft T s._handler.pollInterval (tick response (env k) (weak k) _).1.elapsed +
              (k + 1) ≤ _
          omega
  have hmono : ∃ b, (runExecute response env weak (T / s._handler.pollInterval + 4)
      (Submitter.enter r T, s)).1.pc = Pc.returned b := by
    rcases key (T / s._handler.pollInterval + 4) with h | h
    · exact h
    · have h0 : (runExecute response env weak (T / s._handler.pollInterval + 4)
          (Submitter.enter r T, s)).1.pc.rank = 0 := by omega
      revert h0
      cases (runExecute response env weak (T / s._handler.pollInterval + 4)
          (Submitter.enter r T, s)).1.pc <;> simp [Pc.rank]
  obtain ⟨b, hb⟩ := hmono
  obtain ⟨m, rfl⟩ := Nat.exists_eq_add_of_le hn
  exact ⟨b, by rw [runExecute_returned response env weak _ _ b hb m]; exact hb⟩

theorem applyAll_nil (response : Response) (s : LocalSession) : applyAll response [] s = s := rfl

theorem callsOn_append (r : RequestPtr) (xs ys : List Call) :
    callsOn r (xs ++ ys) = callsOn r xs ++ callsOn r ys := by
  simp [callsOn]

/-- Unless it is a call of `poll`, an action leaves an occupied slot as it is. -/
theorem Op.apply_keeps_occupant (response : Response) (op : Op) (s : LocalSession)
    (r : RequestPtr) (hop : op.isPoll = false) (h : s._request = some r) :
    (op.apply response s)._request = some r := by
  cases op with
  | submit t spurious => exact Submitter.step_keeps_occupant response spurious t s r h
  | poll b => simp [Op.isPoll] at hop
  | start => simpa [Op.apply, LocalSession.start] using h
  | isAlive => simpa [Op.apply] using h
  | shutdown =>
    simp only [Op.apply, LocalSession.shutdown]
    split <;> simp_all

theorem applyAll_keeps_occupant (response : Response) (ops : List Op) (s : LocalSession)
    (r : RequestPtr) (hops : ∀ op ∈ ops, op.isPoll = false) (h : s._request = some r) :
    (applyAll response ops s)._request = some r := by
  induction ops generalizing s with
  | nil => exact h
  | cons op ops ih =>
    rw [applyAll_cons]
    exact ih _ (fun o ho => hops o (List.mem_cons_of_mem _ ho))
      (Op.apply_keeps_occupant response op s r (hops op (List.mem_cons_self _ _)) h)

/-- An action that is neither a call of `poll` nor a step of `execute` on `r`
makes no call on `r`. -/
theorem Op.apply_callsOn (response : Response) (op : Op) (s : LocalSession)
    (r : RequestPtr) (hop : op.isPoll = false) (hr : op.submits r = false) :
    callsOn r (op.apply response s).calls = callsOn r s.calls := by
  cases op with
  | submit t spurious =>
    have hne : t.request_ ≠ r := by simpa [Op.submits] using hr
    simp only [Op.apply, Submitter.step]
    split <;> (try split) <;> (try split) <;> simp [callsOn, Call.request, hne]
  | poll b => simp [Op.isPoll] at hop
  | start => simp [Op.apply, LocalSession.start]
  | isAlive => simp [Op.apply]
  | shutdown =>
    simp only [Op.apply, LocalSession.shutdown]
    split <;> simp

theorem applyAll_callsOn (response : Response) (ops : List Op) (s : LocalSession)
    (r : RequestPtr) (hops : ∀ op ∈ ops, op.isPoll = false)
    (hr : ∀ op ∈ ops, op.submits r = false) :
    callsOn r (applyAll response ops s).calls = callsOn r s.calls := by
  induction ops generalizing s with
  | nil => rfl
  | cons op ops ih =>
    rw [applyAll_cons, ih _ (fun o ho => hops o (List.mem_cons_of_mem _ ho))
      (fun o ho => hr o (List.mem_cons_of_mem _ ho)),
      Op.apply_callsOn response op s r (hops op (List.mem_cons_self _ _))
        (hr op (List.mem_cons_self _ _))]

/-- An action that is not a step of `execute` on `r` does not put `r` in the slot. -/
theorem Op.apply_not_holding (response : Response) (op : Op) (s : LocalSession)
    (r : RequestPtr) (hr : op.submits r = false) (h : s._request ≠ some r) :
    (op.apply response s)._request ≠ some r := by
  cases op with
  | submit t spurious =>
    have hne : t.request_ ≠ r := by simpa [Op.submits] using hr
    simp only [Op.apply, Submitter.step]
    split <;> (try split) <;> (try split) <;> simp_all
  | poll b =>
    simp only [Op.apply, LocalSession.poll]
    split <;> simp_all
  | start => simpa [Op.apply, LocalSession.start] using h
  | isAlive => simpa [Op.apply] using h
  | shutdown =>
    simp only [Op.apply, LocalSession.shutdown]
    split <;> simp_all

theorem applyAll_not_holding (response : Response) (ops : List Op) (s : LocalSession)
    (r : RequestPtr) (hr : ∀ op ∈ ops, op.submits r = false) (h : s._request ≠ some r) :
    (applyAll response ops s)._request ≠ some r := by
  induction ops generalizing s with
  | nil => exact h
  | cons op ops ih =>
    rw [applyAll_cons]
    exact ih _ (fun o ho => hr o (List.mem_cons_of_mem _ ho))
      (Op.apply_not_holding response op s r (hr op (List.mem_cons_self _ _)) h)

/-- Over a whole run the elapsed time is the number of sleeps times the poll
interval, and with a nonzero timeout it stays within timeout plus one interval. -/
theorem runExecute_elapsed (response : Response) (env : Nat → List Op) (weak : Nat → Bool)
    (s : LocalSession) (r : RequestPtr) (T : MilliSeconds) (n : Nat) :
    (runExecute response env weak n (Submitter.enter r T, s)).1.elapsed =
      (runExecute response env weak n (Submitter.enter r T, s)).1.trace.count Event.slept *
        s._handler.pollInterval ∧
    (0 < T → (runExecute response env weak n (Submitter.enter r T, s)).1.elapsed ≤
      T + s._handler.pollInterval) := by
  induction n with
  | zero => simp [runExecute, Submitter.enter]
  | succ n ih =>
    have hf := runExecute_frame response env weak n (Submitter.enter r T, s)
    have hT' : (runExecute response env weak n (Submitter.enter r T, s)).1.timeout_ = T :=
      hf.2.1
    have hp' : (runExecute response env weak n (Submitter.enter r T, s)).2._handler
        = s._handler := hf.2.2
    have := tick_elapsed response (env n) (weak n)
      (runExecute response env weak n (Submitter.enter r T, s))
      (by rw [hp']; exact ih.1) (by rw [hT', hp']; exact ih.2)
    rw [hT', hp'] at this
    exact this

theorem sleeps_bound (T p k : Nat) (hp : 0 < p) (h : k * p ≤ T + p) : k ≤ T / p + 1 := by
  cases k with
  | zero => exact Nat.zero_le _
  | succ k =>
    have h2 : k * p ≤ T := by
      rw [Nat.succ_mul] at h
      omega
    have := (Nat.le_div_iff_mul_le hp).mpr h2
    omega

theorem ceiling_bound (T p : Nat) : (T / p + 1) * p ≤ T + p := by
  rw [Nat.add_mul, Nat.one_mul]
  have := Nat.div_mul_le_self T p
  omega

theorem tick_timeoutInv (response : Response) (others : List Op) (spurious : Bool)
    (r : RequestPtr) (T : MilliSeconds) (c : Submitter × LocalSession)
    (hnp : ∀ op ∈ others, op.isPoll = false)
    (h : TimeoutInv r T c) : TimeoutInv r T (tick response others spurious c) := by
  obtain ⟨hr, hT, hrd, hpc⟩ := h
  have hkeep := applyAll_keeps_occupant response others c.2 r hnp
  unfold tick
  cases hq : c.1.pc with
  | returned b => simpa [TimeoutInv, hq, hr, hT, hrd] using hpc
  | enqueue =>
    rw [hq] at hpc
    simp only [Submitter.step, hq, hr, hT]
    split
    · next hto => simp_all [TimeoutInv]
    · split
      · simp_all [TimeoutInv, List.count_append]
      · simp_all [TimeoutInv, List.count_append]
  | await =>
    rw [hq] at hpc
    simp only [Submitter.step, hq, hr, hT]
    split
    · next hto => simp_all [TimeoutInv]
    · split
      · next hto hsame =>
        simp only [TimeoutInv, hr, hT, true_and]
        simp_all [List.count_append]
      · next hto hne =>
        exfalso
        rcases hpc.2 with h1 | h1
        · exact hto h1
        · exact hne (hkeep h1)
  | result =>
    rw [hq] at hpc
    simp only [Submitter.step, hq, hr, hT]
    split
    · simp_all [TimeoutInv, List.count_append]
    · simp_all

theorem runExecute_timeoutInv (response : Response) (env : Nat → List Op) (weak : Nat → Bool)
    (s : LocalSession) (r : RequestPtr) (T : MilliSeconds)
    (hnp : ∀ k, ∀ op ∈ env k, op.isPoll = false) (n : Nat) :
    TimeoutInv r T (runExecute response env weak n (Submitter.enter r T, s)) := by
  refine runExecute_induct response env weak (TimeoutInv r T) _ ?_ ?_ n
  · simp [TimeoutInv, Submitter.enter]
  · intro k c hc
    exact tick_timeoutInv response (env k) (weak k) r T c (hnp k) hc

theorem tick_callsInv (response : Response) (others : List Op) (spurious : Bool)
    (r : RequestPtr) (T : MilliSeconds) (base : List Call) (c : Submitter × LocalSession)
    (hnp : ∀ op ∈ others, op.isPoll = false) (hown : ∀ op ∈ others, op.submits r = false)
    (h : CallsInv r T base c) : CallsInv r T base (tick response others spurious c) := by
  obtain ⟨hr, hT, hpc⟩ := h
  have hcalls := applyAll_callsOn response others c.2 r hnp hown
  unfold tick
  cases hq : c.1.pc with
  | returned b => simpa [CallsInv, hq, hr, hT] using hpc
  | enqueue =>
    rw [hq] at hpc
    simp only [Submitter.step, hq, hr, hT]
    split
    · simp_all [CallsInv]
    · split <;> simp_all [CallsInv]
  | await =>
    rw [hq] at hpc
    simp only [Submitter.step, hq, hr, hT]
    split
    · simp_all [CallsInv]
    · split <;> simp_all [CallsInv]
  | result =>
    rw [hq] at hpc
    simp only [Submitter.step, hq, hr, hT]
    split
    · simp_all [CallsInv, callsOn_append, callsOn, Call.request]
    · simp_all [CallsInv]

theorem runExecute_callsInv (response : Response) (env : Nat → List Op) (weak : Nat → Bool)
    (s : LocalSession) (r : RequestPtr) (T : MilliSeconds)
    (hnp : ∀ k, ∀ op ∈ env k, op.isPoll = false)
    (hown : ∀ k, ∀ op ∈ env k, op.submits r = false) (n : Nat) :
    CallsInv r T (callsOn r s.calls)
      (runExecute response env weak n (Submitter.enter r T, s)) := by
  refine runExecute_induct response env weak (CallsInv r T (callsOn r s.calls)) _ ?_ ?_ n
  · simp [CallsInv, Submitter.enter]
  · intro k c hc
    exact tick_callsInv response (env k) (weak k) r T _ c (hnp k) (hown k) hc

theorem tick_returnInv (response : Response) (others : List Op) (spurious : Bool)
    (r : RequestPtr) (T : MilliSeconds) (c : Submitter × LocalSession)
    (h : ReturnInv response r T c) : ReturnInv response r T (tick response others spurious c) := by
  obtain ⟨hr, hT, hpc⟩ := h
  unfold tick
  cases hq : c.1.pc with
  | returned b => simpa [ReturnInv, hq, hr, hT] using hpc
  | enqueue =>
    rw [hq] at hpc
    simp only [Submitter.step, hq, hr, hT]
    split
    · simp_all [ReturnInv]
    · split <;> simp_all [ReturnInv, List.count_append]
  | await =>
    rw [hq] at hpc
    simp only [Submitter.step, hq, hr, hT]
    split
    · simp_all [ReturnInv]
    · split <;> simp_all [ReturnInv, List.count_append]
  | result =>
    rw [hq] at hpc
    simp only [Submitter.step, hq, hr, hT]
    split
    · simp_all [ReturnInv, List.count_append]
    · simp_all [ReturnInv]

theorem runExecute_returnInv (response : Response) (env : Nat → List Op) (weak : Nat → Bool)
    (s : LocalSession) (r : RequestPtr) (T : MilliSeconds) (n : Nat) :
    ReturnInv response r T (runExecute response env weak n (Submitter.enter r T, s)) := by
  refine runExecute_induct response env weak (ReturnInv response r T) _ ?_ ?_ n
  · simp [ReturnInv, Submitter.enter]
  · intro k c hc
    exact tick_returnInv response (env k) (weak k) r T c hc

theorem tick_handoffInv (response : Response) (others : List Op) (spurious : Bool)
    (r : RequestPtr) (T : MilliSeconds) (c : Submitter × LocalSession)
    (hown : ∀ op ∈ others, op.submits r = false)
    (h : HandoffInv r T c) : HandoffInv r T (tick response others spurious c) := by
  obtain ⟨hr, hT, hpc⟩ := h
  have hnot := applyAll_not_holding response others c.2 r hown
  unfold tick
  cases hq : c.1.pc with
  | returned b => simpa [HandoffInv, hq, hr, hT] using hpc
  | enqueue =>
    simp only [Submitter.step, hq, hr, hT]
    split
    · simp_all [HandoffInv]
    · split <;> simp_all [HandoffInv]
  | await =>
    simp only [Submitter.step, hq, hr, hT]
    split
    · simp_all [HandoffInv]
    · split <;> simp_all [HandoffInv]
  | result =>
    rw [hq] at hpc
    simp only [Submitter.step, hq, hr, hT]
    split
    · simp_all [HandoffInv]
    · next hto =>
      simp only [HandoffInv, hr, hT, true_and]
      rcases hpc with h1 | h1
      · exact absurd h1 hto
      · exact Or.inr (hnot h1)

theorem runExecute_handoffInv (response : Response) (env : Nat → List Op) (weak : Nat → Bool)
    (s : LocalSession) (r : RequestPtr) (T : MilliSeconds)
    (hown : ∀ k, ∀ op ∈ env k, op.submits r = false) (n : Nat) :
    HandoffInv r T (runExecute response env weak n (Submitter.enter r T, s)) := by
  refine runExecute_induct response env weak (HandoffInv r T) _ ?_ ?_ n
  · simp [HandoffInv, Submitter.enter]
  · intro k c hc
    exact tick_handoffInv response (env k) (weak k) r T c (hown k) hc

/-- When the slot stops holding `r` over a sequence of actions, one of them is
a call of `poll` made while the slot held `r`. -/
theorem applyAll_loses_occupant (response : Response) (ops : List Op) (s : LocalSession)
    (r : RequestPtr) (h0 : s._request = some r)
    (h1 : (applyAll response ops s)._request ≠ some r) :
    ∃ pre b post, ops = pre ++ Op.poll b :: post ∧
      (applyAll response pre s)._request = some r := by
  induction ops generalizing s with
  | nil => exact absurd h0 h1
  | cons op ops ih =>
    rw [applyAll_cons] at h1
    by_cases hop : op.isPoll = true
    · cases op with
      | poll b => exact ⟨[], b, ops, rfl, h0⟩
      | submit t spurious => simp [Op.isPoll] at hop
      | start => simp [Op.isPoll] at hop
      | isAlive => simp [Op.isPoll] at hop
      | shutdown => simp [Op.isPoll] at hop
    · have hkeep := Op.apply_keeps_occupant response op s r (by simpa using hop) h0
      obtain ⟨pre, b, post, hops, hpre⟩ := ih _ hkeep h1
      exact ⟨op :: pre, b, post, by simp [hops], by rw [applyAll_cons]; exact hpre⟩

theorem tick_enqueue (response : Response) (others : List Op) (spurious : Bool)
    (c : Submitter × LocalSession) (hq : c.1.pc = Pc.enqueue) :
    tick response others spurious c =
      if hasTimedOut c.1.timeout_ c.1.elapsed then
        ({ c.1 with pc := Pc.await }, applyAll response others c.2)
      else if (applyAll response others c.2)._request = none ∧ spurious = false then
        ({ c.1 with pc := Pc.await, trace := c.1.trace ++ [Event.published] },
         { (applyAll response others c.2) with _request := some c.1.request_ })
      else
        ({ c.1 with elapsed := c.1.elapsed + (applyAll response others c.2)._handler.pollInterval,
                    trace := c.1.trace ++ [Event.publishFailed, Event.slept] },
         applyAll response others c.2) := by
  simp [tick, Submitter.step, hq]

theorem tick_await (response : Response) (others : List Op) (spurious : Bool)
    (c : Submitter × LocalSession) (hq : c.1.pc = Pc.await) :
    tick response others spurious c =
      if hasTimedOut c.1.timeout_ c.1.elapsed then
        ({ c.1 with pc := Pc.result }, applyAll response others c.2)
      else if (applyAll response others c.2)._request = some c.1.request_ then
        ({ c.1 with elapsed := c.1.elapsed + (applyAll response others c.2)._handler.pollInterval,
                    trace := c.1.trace ++ [Event.stillPending, Event.slept] },
         applyAll response others c.2)
      else
        ({ c.1 with pc := Pc.result, trace := c.1.trace ++ [Event.cleared] },
         applyAll response others c.2) := by
  simp [tick, Submitter.step, hq]

theorem tick_result (response : Response) (others : List Op) (spurious : Bool)
    (c : Submitter × LocalSession) (hq : c.1.pc = Pc.result) :
    tick response others spurious c =
      if hasTimedOut c.1.timeout_ c.1.elapsed then
        ({ c.1 with pc := Pc.returned false, trace := c.1.trace ++ [Event.aborted] },
         { (applyAll response others c.2) with
           calls := (applyAll response others c.2).calls ++
             [Call.abort c.1.request_ timedOutReason] })
      else
        ({ c.1 with
            pc := Pc.returned (response (applyAll response others c.2).calls c.1.request_),
            trace := c.1.trace ++ [Event.responseRead] },
         applyAll response others c.2) := by
  simp [tick, Submitter.step, hq]

theorem runExecute_zeroInv (response : Response) (env : Nat → List Op) (weak : Nat → Bool)
    (s : LocalSession) (r : RequestPtr) (n : Nat) :
    ZeroInv response env weak (Submitter.enter r 0, s) n := by
  induction n with
  | zero => simp [ZeroInv, runExecute, Submitter.enter]
  | succ n ih =>
    have hf := runExecute_frame response env weak n (Submitter.enter r 0, s)
    have hr : (runExecute response env weak n (Submitter.enter r 0, s)).1.request_ = r := hf.1
    have hT : (runExecute response env weak n (Submitter.enter r 0, s)).1.timeout_ = 0 := hf.2.1
    have hnext : runExecute response env weak (n + 1) (Submitter.enter r 0, s) =
      tick response (env n) (weak n) (runExecute response env weak n (Submitter.enter r 0, s)) :=
      rfl
    have hreq : (Submitter.enter r 0, s).1.request_ = r := rfl
    cases hq : (runExecute response env weak n (Submitter.enter r 0, s)).1.pc with
    | returned b =>
      have hsame := tick_returned response (env n) (weak n) _ b hq
      obtain ⟨i, j, hij, hjn, hrest⟩ := ih.2 (Or.inr ⟨b, hq⟩)
      refine ⟨?_, fun _ => ⟨i, j, hij, by omega, hrest⟩⟩
      intro hpc
      rw [hnext, hsame, hq] at hpc
      exact absurd hpc (by simp)
    | enqueue =>
      have ht := tick_enqueue response (env n) (weak n) _ hq
      rw [hT, hasTimedOut_zero] at ht
      simp only [Bool.false_eq_true, if_false] at ht
      by_cases hcas : (applyAll response (env n)
          (runExecute response env weak n (Submitter.enter r 0, s)).2)._request = none ∧
          weak n = false
      · rw [if_pos hcas] at ht
        refine ⟨fun _ => ⟨n, by omega, ⟨hq, hcas.1, hcas.2, ?_⟩, Or.inl ?_⟩, ?_⟩
        · rw [hnext, ht]; exact congrArg some hr
        · rw [hnext, ht]; exact congrArg some hr
        · intro hpc
          rw [hnext, ht] at hpc
          simp at hpc
      · rw [if_neg hcas] at ht
        refine ⟨?_, ?_⟩
        · intro hpc
          rw [hnext, ht] at hpc
          simp [hq] at hpc
        · intro hpc
          rw [hnext, ht] at hpc
          simp [hq] at hpc
    | await =>
      have ht := tick_await response (env n) (weak n) _ hq
      rw [hT, hasTimedOut_zero] at ht
      simp only [Bool.false_eq_true, if_false] at ht
      obtain ⟨i, hin, hpub, hmid⟩ := ih.1 hq
      by_cases hload : (applyAll response (env n)
          (runExecute response env weak n (Submitter.enter r 0, s)).2)._request = some r
      · rw [hr, if_pos hload] at ht
        refine ⟨fun _ => ⟨i, by omega, hpub, Or.inl ?_⟩, ?_⟩
        · rw [hnext, ht]; exact hload
        · intro hpc
          rw [hnext, ht] at hpc
          simp [hq] at hpc
      · rw [hr, if_neg hload] at ht
        refine ⟨?_, fun _ => ⟨i, n, hin, by omega, hpub, ⟨hq, hload⟩, ?_⟩⟩
        · intro hpc
          rw [hnext, ht] at hpc
          simp at hpc
        · rcases hmid with hheld | ⟨k, hik, hkn, hk⟩
          · exact ⟨n, hin, Nat.le_refl n,
              applyAll_loses_occupant response (env n) _ r hheld hload⟩
          · exact ⟨k, hik, by omega, hk⟩
    | result =>
      have ht := tick_result response (env n) (weak n) _ hq
      rw [hT, hasTimedOut_zero] at ht
      simp only [Bool.false_eq_true, if_false] at ht
      obtain ⟨i, j, hij, hjn, hrest⟩ := ih.2 (Or.inl hq)
      refine ⟨?_, fun _ => ⟨i, j, hij, by omega, hrest⟩⟩
      intro hpc
      rw [hnext, ht] at hpc
      simp at hpc

/-- What a step of `execute` does when the call has not timed out. -/
theorem Submitter.step_cases (response : Response) (spurious : Bool) (t : Submitter)
    (s : LocalSession) (hnt : hasTimedOut t.timeout_ t.elapsed = false) :
    ((t.step response spurious s).1.request_ = t.request_ ∧
      (t.step response spurious s).1.timeout_ = t.timeout_) ∧
    ((t.pc = Pc.enqueue ∧ s._request = none ∧ spurious = false ∧
        (t.step response spurious s).1.pc = Pc.await ∧
        (t.step response spurious s).2 = { s with _request := some t.request_ }) ∨
      ((t.step response spurious s).2 = s ∧
        ((t.pc = Pc.enqueue ∧ (t.step response spurious s).1.pc = Pc.enqueue) ∨
          (t.pc = Pc.await ∧ s._request = some t.request_ ∧
            (t.step response spurious s).1.pc = Pc.await) ∨
          (t.pc = Pc.await ∧ s._request ≠ some t.request_ ∧
            (t.step response spurious s).1.pc = Pc.result) ∨
          (t.pc = Pc.result ∧ ∃ b, (t.step response spurious s).1.pc = Pc.returned b) ∨
          (∃ b, t.pc = Pc.returned b ∧ (t.step response spurious s).1 = t)))) := by
  unfold Submitter.step
  cases hq : t.pc with
  | enqueue =>
    simp only [hnt, Bool.false_eq_true, if_false]
    by_cases hcas : s._request = none ∧ spurious = false
    · simp [hcas]
    · simp [hcas]
  | await =>
    simp only [hnt, Bool.false_eq_true, if_false]
    by_cases hload : s._request = some t.request_
    · simp [hload]
    · simp [hload]
  | result => simp [hnt]
  | returned b => simp

theorem Poller.step_idle_some (b : Bool) (q : Poller) (s : LocalSession) (r : RequestPtr)
    (hq : q.pc = PollPc.idle) (hs : s._request = some r) :
    q.step b s = ({ q with pc := PollPc.call r b, made := [] }, s) := by
  simp [Poller.step, hq, hs]

theorem Poller.step_idle_none (b : Bool) (q : Poller) (s : LocalSession)
    (hq : q.pc = PollPc.idle) (hs : s._request = none) :
    q.step b s = ({ q with pc := PollPc.leave, made := [] }, s) := by
  simp [Poller.step, hq, hs]

theorem Poller.step_call (b : Bool) (q : Poller) (s : LocalSession) (r : RequestPtr)
    (accept : Bool) (hq : q.pc = PollPc.call r accept) :
    q.step b s =
      if accept then
        ({ q with pc := PollPc.flag r, made := q.made ++ [Call.execute r] },
         { s with calls := s.calls ++ [Call.execute r] })
      else
        ({ q with pc := PollPc.clear r, made := q.made ++ [Call.abort r pollAbortReason] },
         { s with calls := s.calls ++ [Call.abort r pollAbortReason] }) := by
  simp [Poller.step, hq]

theorem Poller.step_flag (b : Bool) (q : Poller) (s : LocalSession) (r : RequestPtr)
    (hq : q.pc = PollPc.flag r) :
    q.step b s = ({ q with pc := PollPc.clear r }, { s with _isAlive := true }) := by
  simp [Poller.step, hq]

theorem Poller.step_clear (b : Bool) (q : Poller) (s : LocalSession) (r : RequestPtr)
    (hq : q.pc = PollPc.clear r) :
    q.step b s = ({ q with pc := PollPc.leave }, { s with _request := none }) := by
  simp [Poller.step, hq]

theorem Poller.step_leave (b : Bool) (q : Poller) (s : LocalSession)
    (hq : q.pc = PollPc.leave) :
    q.step b s = ({ q with pc := PollPc.idle, result := some s.isAlive }, s) := by
  simp [Poller.step, hq]

/-- A step of the poller keeps it sound. -/
theorem Poller.keeps_sound (q : Poller) (s : LocalSession) (h : q.Sound s) :
    (q.step true s).1.Sound (q.step true s).2 := by
  cases hq : q.pc with
  | idle =>
    cases hs : s._request with
    | none => rw [Poller.step_idle_none true q s hq hs]; simp [Poller.Sound]
    | some r => rw [Poller.step_idle_some true q s r hq hs]; simp [Poller.Sound, hs]
  | call r accept =>
    simp only [Poller.Sound, hq] at h
    rw [Poller.step_call true q s r accept hq, h.2]
    simp [Poller.Sound, h.1]
  | flag r =>
    simp only [Poller.Sound, hq] at h
    rw [Poller.step_flag true q s r hq]
    simp [Poller.Sound, h]
  | clear r => rw [Poller.step_clear true q s r hq]; simp [Poller.Sound]
  | leave => rw [Poller.step_leave true q s hq]; simp [Poller.Sound]

/-- A session with the same slot keeps the poller sound. -/
theorem Poller.sound_of_slot (q : Poller) (s s2 : LocalSession)
    (hkeep : ∀ r, s._request = some r → s2._request = some r) (h : q.Sound s) :
    q.Sound s2 := by
  unfold Poller.Sound at h ⊢
  cases hq : q.pc with
  | idle => trivial
  | call r accept => rw [hq] at h; exact ⟨hkeep r h.1, h.2⟩
  | flag r => rw [hq] at h; exact hkeep r h
  | clear r => rw [hq] at h; exact hkeep r h
  | leave => trivial

/-- A poller that is sound with an empty slot has served no request. -/
theorem Poller.not_served_of_empty (q : Poller) (s : LocalSession) (r : RequestPtr)
    (h : q.Sound s) (hs : s._request ≠ some r) : ¬ q.served r := by
  intro hserved
  unfold Poller.Sound at h
  rcases hserved with hq | hq
  · rw [hq] at h; exact hs h
  · rw [hq] at h; exact hs h

theorem Submitter.sound_step_self (response : Response) (spurious : Bool) (t : Submitter)
    (s : LocalSession) (q : Poller) (hnt : hasTimedOut t.timeout_ t.elapsed = false)
    (hq : q.Sound s) (h : t.Sound s q) :
    (t.step response spurious s).1.Sound (t.step response spurious s).2 q := by
  obtain ⟨⟨hr, _⟩, hc⟩ := Submitter.step_cases response spurious t s hnt
  unfold Submitter.Sound at h ⊢
  rw [hr]
  rcases hc with ⟨hpc, hs, _, hpc2, hs2⟩ | ⟨hs2, hc⟩
  · rw [hpc] at h
    rw [hpc2, hs2]
    exact Or.inl ⟨rfl, Poller.not_served_of_empty q s _ hq h.2, h.1⟩
  · rw [hs2]
    rcases hc with ⟨hpc, hpc2⟩ | ⟨hpc, hl, hpc2⟩ | ⟨hpc, hl, hpc2⟩ | ⟨hpc, b, hpc2⟩ |
      ⟨b, hpc, hsame⟩
    · rw [hpc] at h; rw [hpc2]; exact h
    · rw [hpc] at h; rw [hpc2]; exact h
    · rw [hpc] at h; rw [hpc2]
      rcases h with h | h | h
      · exact absurd h.1 hl
      · exact absurd h.1 hl
      · exact ⟨h.2, h.1⟩
    · rw [hpc] at h; rw [hpc2]; exact h
    · rw [hsame]; exact h

theorem Submitter.sound_step_other (response : Response) (spurious : Bool) (t u : Submitter)
    (s : LocalSession) (q : Poller) (hnt : hasTimedOut t.timeout_ t.elapsed = false)
    (hne : u.request_ ≠ t.request_) (h : u.Sound s q) :
    u.Sound (t.step response spurious s).2 q := by
  obtain ⟨_, hc⟩ := Submitter.step_cases response spurious t s hnt
  rcases hc with ⟨_, hs, _, _, hs2⟩ | ⟨hs2, _⟩
  · rw [hs2]
    have hslot : (some t.request_ : Option RequestPtr) ≠ some u.request_ := by
      intro hEq
      exact hne (Option.some.inj hEq).symm
    have hnone : s._request ≠ some u.request_ := by rw [hs]; simp
    unfold Submitter.Sound at h ⊢
    cases hpc : u.pc with
    | enqueue => rw [hpc] at h; exact ⟨h.1, hslot⟩
    | await =>
      rw [hpc] at h
      rcases h with h | h | h
      · exact absurd h.1 hnone
      · exact absurd h.1 hnone
      · exact Or.inr (Or.inr ⟨hslot, h.2⟩)
    | result => rw [hpc] at h; exact ⟨h.1, hslot⟩
    | returned b => rw [hpc] at h; exact ⟨h.1, hslot⟩
  · rw [hs2]; exact h

theorem Poller.distance_le (q : Poller) : q.distance ≤ 5 := by
  unfold Poller.distance
  split <;> omega

theorem Submitter.progress_step_self (response : Response) (spurious : Bool) (t : Submitter)
    (s : LocalSession) (q : Poller) (hnt : hasTimedOut t.timeout_ t.elapsed = false) :
    (t.step response spurious s).1.progress (t.step response spurious s).2 q ≤
      t.progress s q := by
  obtain ⟨⟨hr, _⟩, hc⟩ := Submitter.step_cases response spurious t s hnt
  have hd := Poller.distance_le q
  rcases hc with ⟨hpc, hs, _, hpc2, hs2⟩ | ⟨hs2, hc⟩
  · simp only [Submitter.progress, hpc, hpc2, hs2, hr, if_true]
    omega
  · rw [hs2]
    rcases hc with ⟨hpc, hpc2⟩ | ⟨hpc, hl, hpc2⟩ | ⟨hpc, hl, hpc2⟩ | ⟨hpc, b, hpc2⟩ |
      ⟨b, hpc, hsame⟩
    · simp [Submitter.progress, hpc, hpc2]
    · simp [Submitter.progress, hpc, hpc2, hr]
    · simp [Submitter.progress, hpc, hpc2, hl]
    · simp [Submitter.progress, hpc, hpc2]
    · rw [hsame]

theorem Submitter.progress_step_other (response : Response) (spurious : Bool)
    (t u : Submitter) (s : LocalSession) (q : Poller)
    (hnt : hasTimedOut t.timeout_ t.elapsed = false) (hne : u.request_ ≠ t.request_) :
    u.progress (t.step response spurious s).2 q = u.progress s q := by
  obtain ⟨_, hc⟩ := Submitter.step_cases response spurious t s hnt
  rcases hc with ⟨_, hs, _, _, hs2⟩ | ⟨hs2, _⟩
  · rw [hs2]
    unfold Submitter.progress
    cases hpc : u.pc with
    | await =>
      have h1 : ¬ ((some t.request_ : Option RequestPtr) = some u.request_) := by
        intro hEq
        exact hne (Option.some.inj hEq).symm
      simp [hs, h1]
    | enqueue => rfl
    | result => rfl
    | returned b => rfl
  · rw [hs2]

/-- A step of the accepting poller keeps every call of `execute` sound. -/
theorem Submitter.sound_pollStep (u : Submitter) (s : LocalSession) (q : Poller)
    (hq : q.Sound s) (h : u.Sound s q) :
    u.Sound (q.step true s).2 (q.step true s).1 := by
  cases hpc : q.pc with
  | idle =>
    have hns : ∀ x, ¬ q.served x := by
      intro x hx
      rcases hx with hx | hx <;> rw [hpc] at hx <;> exact PollPc.noConfusion hx
    have key : ∀ q2 : Poller, (∀ x, ¬ q2.served x) → u.Sound s q2 := by
      intro q2 hq2
      unfold Submitter.Sound at h ⊢
      cases hu : u.pc with
      | enqueue => rw [hu] at h; exact h
      | await =>
        rw [hu] at h
        rcases h with h | h | h
        · exact Or.inl ⟨h.1, hq2 _, h.2.2⟩
        · exact absurd h.2.1 (hns _)
        · exact Or.inr (Or.inr h)
      | result => rw [hu] at h; exact h
      | returned b => rw [hu] at h; exact h
    cases hs : s._request with
    | none =>
      rw [Poller.step_idle_none true q s hpc hs]
      exact key _ (by intro x hx; rcases hx with hx | hx <;> exact PollPc.noConfusion hx)
    | some r =>
      rw [Poller.step_idle_some true q s r hpc hs]
      exact key _ (by intro x hx; rcases hx with hx | hx <;> exact PollPc.noConfusion hx)
  | call r accept =>
    simp only [Poller.Sound, hpc] at hq
    obtain ⟨hslot, hacc⟩ := hq
    rw [Poller.step_call true q s r accept hpc, hacc]
    simp only [if_true]
    have hns : ∀ x, ¬ q.served x := by
      intro x hx
      rcases hx with hx | hx <;> rw [hpc] at hx <;> exact PollPc.noConfusion hx
    unfold Submitter.Sound at h ⊢
    by_cases hr : u.request_ = r
    · cases hu : u.pc with
      | enqueue => rw [hu, hslot, hr] at h; exact absurd rfl h.2
      | await =>
        rw [hu] at h
        rcases h with h | h | h
        · refine Or.inr (Or.inl ⟨h.1, Or.inl (by rw [hr]), ?_⟩)
          show callsOn u.request_ (s.calls ++ [Call.execute r]) = _
          rw [callsOn_append, h.2.2]
          subst hr
          simp [callsOn, Call.request]
        · exact absurd h.2.1 (hns _)
        · rw [hslot, hr] at h; exact absurd rfl h.1
      | result => rw [hu, hslot, hr] at h; exact absurd rfl h.2
      | returned b => rw [hu, hslot, hr] at h; exact absurd rfl h.2
    · have hcalls : callsOn u.request_ (s.calls ++ [Call.execute r]) =
          callsOn u.request_ s.calls := by
        simp [callsOn_append, callsOn, Call.request, Ne.symm hr]
      have hns3 : ∀ q2 : Poller, q2.pc = PollPc.flag r → ¬ q2.served u.request_ := by
        intro q2 hq2 hx
        rcases hx with hx | hx
        · rw [hq2] at hx; exact hr (PollPc.flag.inj hx).symm
        · rw [hq2] at hx; exact PollPc.noConfusion hx
      cases hu : u.pc with
      | enqueue => rw [hu] at h; exact ⟨hcalls.trans h.1, h.2⟩
      | await =>
        rw [hu] at h
        rcases h with h | h | h
        · exact Or.inl ⟨h.1, hns3 _ rfl, hcalls.trans h.2.2⟩
        · exact absurd h.2.1 (hns _)
        · exact Or.inr (Or.inr ⟨h.1, hcalls.trans h.2⟩)
      | result => rw [hu] at h; exact ⟨hcalls.trans h.1, h.2⟩
      | returned b => rw [hu] at h; exact ⟨hcalls.trans h.1, h.2⟩
  | flag r =>
    rw [Poller.step_flag true q s r hpc]
    have hserved : ∀ x, q.served x ↔ ({ q with pc := PollPc.clear r } : Poller).served x := by
      intro x
      constructor
      · intro hx
        rcases hx with hx | hx
        · rw [hpc] at hx; exact Or.inr (by rw [PollPc.flag.inj hx])
        · rw [hpc] at hx; exact PollPc.noConfusion hx
      · intro hx
        rcases hx with hx | hx
        · exact PollPc.noConfusion hx
        · exact Or.inl (by rw [hpc, PollPc.clear.inj hx])
    unfold Submitter.Sound at h ⊢
    cases hu : u.pc with
    | enqueue => rw [hu] at h; exact h
    | await =>
      rw [hu] at h
      rcases h with h | h | h
      · exact Or.inl ⟨h.1, fun hx => h.2.1 ((hserved _).mpr hx), h.2.2⟩
      · exact Or.inr (Or.inl ⟨h.1, (hserved _).mp h.2.1, h.2.2⟩)
      · exact Or.inr (Or.inr h)
    | result => rw [hu] at h; exact h
    | returned b => rw [hu] at h; exact h
  | clear r =>
    simp only [Poller.Sound, hpc] at hq
    rw [Poller.step_clear true q s r hpc]
    have hnone : (none : Option RequestPtr) ≠ some u.request_ := by simp
    unfold Submitter.Sound at h ⊢
    by_cases hr : u.request_ = r
    · cases hu : u.pc with
      | enqueue => rw [hu, hq, hr] at h; exact absurd rfl h.2
      | await =>
        rw [hu] at h
        rcases h with h | h | h
        · exact absurd (Or.inr (by rw [hpc, hr])) h.2.1
        · exact Or.inr (Or.inr ⟨hnone, h.2.2⟩)
        · rw [hq, hr] at h; exact absurd rfl h.1
      | result => rw [hu, hq, hr] at h; exact absurd rfl h.2
      | returned b => rw [hu, hq, hr] at h; exact absurd rfl h.2
    · have hslot : s._request ≠ some u.request_ := by
        rw [hq]
        intro hEq
        exact hr (Option.some.inj hEq).symm
      cases hu : u.pc with
      | enqueue => rw [hu] at h; exact ⟨h.1, hnone⟩
      | await =>
        rw [hu] at h
        rcases h with h | h | h
        · exact absurd h.1 hslot
        · exact absurd h.1 hslot
        · exact Or.inr (Or.inr ⟨hnone, h.2⟩)
      | result => rw [hu] at h; exact ⟨h.1, hnone⟩
      | returned b => rw [hu] at h; exact ⟨h.1, hnone⟩
  | leave =>
    rw [Poller.step_leave true q s hpc]
    have hns : ∀ x, ¬ q.served x := by
      intro x hx
      rcases hx with hx | hx <;> rw [hpc] at hx <;> exact PollPc.noConfusion hx
    have hns2 : ∀ q2 : Poller, q2.pc = PollPc.idle → ∀ x, ¬ q2.served x := by
      intro q2 hq2 x hx
      rcases hx with hx | hx <;> rw [hq2] at hx <;> exact PollPc.noConfusion hx
    unfold Submitter.Sound at h ⊢
    cases hu : u.pc with
    | enqueue => rw [hu] at h; exact h
    | await =>
      rw [hu] at h
      rcases h with h | h | h
      · exact Or.inl ⟨h.1, hns2 _ rfl _, h.2.2⟩
      · exact absurd h.2.1 (hns _)
      · exact Or.inr (Or.inr h)
    | result => rw [hu] at h; exact h
    | returned b => rw [hu] at h; exact h

/-- A step of the accepting poller raises the progress of no call, and brings a
call whose request is in the slot one step nearer to its return. -/
theorem Submitter.progress_pollStep (u : Submitter) (s : LocalSession) (q : Poller)
    (hq : q.Sound s) :
    u.progress (q.step true s).2 (q.step true s).1 ≤ u.progress s q ∧
    (u.pc = Pc.await → s._request = some u.request_ →
      u.progress (q.step true s).2 (q.step true s).1 < u.progress s q) := by
  cases hpc : q.pc with
  | idle =>
    cases hs : s._request with
    | none =>
      rw [Poller.step_idle_none true q s hpc hs]
      constructor
      · cases hu : u.pc <;> simp [Submitter.progress, hu, hs]
      · intro _ h; exact absurd h (by simp)
    | some r =>
      rw [Poller.step_idle_some true q s r hpc hs]
      constructor
      · cases hu : u.pc with
        | await =>
          simp only [Submitter.progress, hu, Poller.distance, hpc]
          split <;> omega
        | enqueue => simp [Submitter.progress, hu]
        | result => simp [Submitter.progress, hu]
        | returned b => simp [Submitter.progress, hu]
      · intro hu hslot
        have hru : r = u.request_ := Option.some.inj hslot
        subst hru
        simp [Submitter.progress, hu, Poller.distance, hpc, hs]
  | call r accept =>
    simp only [Poller.Sound, hpc] at hq
    obtain ⟨hslot, hacc⟩ := hq
    rw [Poller.step_call true q s r accept hpc, hacc]
    simp only [if_true]
    constructor
    · cases hu : u.pc with
      | await =>
        simp only [Submitter.progress, hu, Poller.distance, hpc]
        split <;> omega
      | enqueue => simp [Submitter.progress, hu]
      | result => simp [Submitter.progress, hu]
      | returned b => simp [Submitter.progress, hu]
    · intro hu hs
      simp [Submitter.progress, hu, Poller.distance, hpc, hs]
  | flag r =>
    rw [Poller.step_flag true q s r hpc]
    constructor
    · cases hu : u.pc with
      | await =>
        simp only [Submitter.progress, hu, Poller.distance, hpc]
        split <;> omega
      | enqueue => simp [Submitter.progress, hu]
      | result => simp [Submitter.progress, hu]
      | returned b => simp [Submitter.progress, hu]
    · intro hu hs
      simp [Submitter.progress, hu, Poller.distance, hpc, hs]
  | clear r =>
    rw [Poller.step_clear true q s r hpc]
    have hnone : ¬ ((none : Option RequestPtr) = some u.request_) := by simp
    constructor
    · cases hu : u.pc with
      | await =>
        simp only [Submitter.progress, hu, Poller.distance, hpc, if_neg hnone]
        split <;> omega
      | enqueue => simp [Submitter.progress, hu]
      | result => simp [Submitter.progress, hu]
      | returned b => simp [Submitter.progress, hu]
    · intro hu hs
      simp [Submitter.progress, hu, Poller.distance, hpc, hs]
  | leave =>
    rw [Poller.step_leave true q s hpc]
    constructor
    · cases hu : u.pc with
      | await =>
        simp only [Submitter.progress, hu, Poller.distance, hpc]
        split <;> omega
      | enqueue => simp [Submitter.progress, hu]
      | result => simp [Submitter.progress, hu]
      | returned b => simp [Submitter.progress, hu]
    · intro hu hs
      simp [Submitter.progress, hu, Poller.distance, hpc, hs]

theorem list_set_self {α : Type} (l : List α) (j : Nat) (a : α) (h : l[j]? = some a) :
    l.set j a = l := by
  apply List.ext_getElem?
  intro n
  rw [List.getElem?_set]
  by_cases hjn : j = n
  · subst hjn
    have hlt : j < l.length := (List.getElem?_eq_some.mp h).1
    simp [hlt, h]
  · simp [hjn]

/-- Two submitter threads of a sound program with distinct requests have
different requests. -/
theorem System.distinct_requests (requests : List (RequestPtr × MilliSeconds))
    (sys : System) (hnd : (requests.map Prod.fst).Nodup)
    (hmap : sys.submitters.map (fun t => (t.request_, t.timeout_)) = requests)
    (i j : Nat) (u t : Submitter) (hi : sys.submitters[i]? = some u)
    (hj : sys.submitters[j]? = some t) (hij : i ≠ j) : u.request_ ≠ t.request_ := by
  intro hEq
  have hreq : sys.submitters.map (fun t => t.request_) = requests.map Prod.fst := by
    rw [← hmap, List.map_map]
    rfl
  rw [← hreq] at hnd
  have hlt : i < (sys.submitters.map (fun t => t.request_)).length := by
    rw [List.length_map]
    exact (List.getElem?_eq_some.mp hi).1
  have h1 : (sys.submitters.map (fun t => t.request_))[i]? = some u.request_ := by
    rw [List.getElem?_map, hi]; rfl
  have h2 : (sys.submitters.map (fun t => t.request_))[j]? = some t.request_ := by
    rw [List.getElem?_map, hj]; rfl
  exact hij (List.getElem?_inj hlt hnd (by rw [h1, h2, hEq]))

theorem poll_true_clears (s : LocalSession) : (s.poll true).2._request = none := by
  cases hslot : s._request with
  | none => rw [poll_empty true s hslot]; exact hslot
  | some r => rw [poll_true_occupied s r hslot]

theorem System.act_step_some (response : Response) (sys : System) (j : Nat) (spurious : Bool)
    (t : Submitter) (h : sys.submitters[j]? = some t) :
    sys.act response (Action.step j spurious) =
      { session := (t.step response spurious sys.session).2,
        poller := sys.poller,
        submitters := sys.submitters.set j (t.step response spurious sys.session).1 } := by
  simp [System.act, h]

theorem System.act_step_none (response : Response) (sys : System) (j : Nat) (spurious : Bool)
    (h : sys.submitters[j]? = none) :
    sys.act response (Action.step j spurious) = sys := by
  simp [System.act, h]

theorem System.act_poll (response : Response) (sys : System) (b : Bool) :
    sys.act response (Action.poll b) =
      { session := (sys.poller.step b sys.session).2,
        poller := (sys.poller.step b sys.session).1,
        submitters := sys.submitters } := by
  simp [System.act]

theorem System.act_start (response : Response) (sys : System) :
    sys.act response Action.start = sys := by
  simp [System.act, LocalSession.start]

theorem System.act_isAlive (response : Response) (sys : System) :
    sys.act response Action.isAlive = sys := by
  simp [System.act]

theorem System.act_shutdown (response : Response) (sys : System) :
    sys.act response Action.shutdown =
      { session := sys.session.shutdown, poller := sys.poller,
        submitters := sys.submitters } := by
  simp [System.act]

theorem shutdown_slot_calls (s : LocalSession) :
    s.shutdown._request = s._request ∧ s.shutdown.calls = s.calls := by
  unfold LocalSession.shutdown
  split <;> simp

/-- Soundness of a call looks at the slot and the calls of the session only. -/
theorem Submitter.sound_congr (u : Submitter) (s s2 : LocalSession) (q : Poller)
    (hslot : s2._request = s._request) (hcalls : s2.calls = s.calls) (h : u.Sound s q) :
    u.Sound s2 q := by
  unfold Submitter.Sound at h ⊢
  rw [hslot, hcalls]
  exact h

theorem Submitter.progress_congr (u : Submitter) (s s2 : LocalSession) (q : Poller)
    (hslot : s2._request = s._request) : u.progress s2 q = u.progress s q := by
  unfold Submitter.progress
  rw [hslot]

/-- Soundness is kept by every action when no call has timed out and the
poller accepts. -/
theorem System.act_sound (response : Response) (requests : List (RequestPtr × MilliSeconds))
    (a : Action) (sys : System) (hnd : (requests.map Prod.fst).Nodup)
    (hs : sys.Sound requests) (hnt : sys.NoTimeout)
    (hpoll : ∀ b, a = Action.poll b → b = true) :
    (sys.act response a).Sound requests := by
  obtain ⟨hmap, hthreads, hpoller, hslot⟩ := hs
  cases a with
  | start => rw [System.act_start]; exact ⟨hmap, hthreads, hpoller, hslot⟩
  | isAlive => rw [System.act_isAlive]; exact ⟨hmap, hthreads, hpoller, hslot⟩
  | shutdown =>
    rw [System.act_shutdown]
    obtain ⟨h1, h2⟩ := shutdown_slot_calls sys.session
    refine ⟨hmap, fun i u hi => Submitter.sound_congr u _ _ _ h1 h2 (hthreads i u hi), ?_,
      fun r hr => ?_⟩
    · exact Poller.sound_of_slot _ _ _ (fun r hr => by rw [h1]; exact hr) hpoller
    · have hr2 : sys.session.shutdown._request = some r := hr
      rw [h1] at hr2
      exact hslot r hr2
  | poll b =>
    have hb : b = true := hpoll b rfl
    subst hb
    rw [System.act_poll]
    refine ⟨hmap, fun i u hi => Submitter.sound_pollStep u _ _ hpoller (hthreads i u hi),
      Poller.keeps_sound _ _ hpoller, fun r hr => ?_⟩
    have hr2 : (sys.poller.step true sys.session).2._request = some r := hr
    have hold : sys.session._request = some r := by
      cases hpc : sys.poller.pc with
      | idle =>
        cases hs : sys.session._request with
        | none => rw [Poller.step_idle_none true _ _ hpc hs, hs] at hr2; exact hr2
        | some x => rw [Poller.step_idle_some true _ _ x hpc hs, hs] at hr2; exact hr2
      | call x accept =>
        rw [Poller.step_call true _ _ x accept hpc] at hr2
        split at hr2 <;> exact hr2
      | flag x => rw [Poller.step_flag true _ _ x hpc] at hr2; exact hr2
      | clear x => rw [Poller.step_clear true _ _ x hpc] at hr2; exact absurd hr2 (by simp)
      | leave => rw [Poller.step_leave true _ _ hpc] at hr2; exact hr2
    exact hslot r hold
  | step j spurious =>
    cases hj : sys.submitters[j]? with
    | none =>
      rw [System.act_step_none response sys j spurious hj]
      exact ⟨hmap, hthreads, hpoller, hslot⟩
    | some t =>
      rw [System.act_step_some response sys j spurious t hj]
      have htnt : hasTimedOut t.timeout_ t.elapsed = false := hnt t (List.getElem?_mem hj)
      have hjlt : j < sys.submitters.length := (List.getElem?_eq_some.mp hj).1
      obtain ⟨⟨hr', hT'⟩, hc⟩ := Submitter.step_cases response spurious t sys.session htnt
      refine ⟨?_, ?_, ?_, ?_⟩
      · show (sys.submitters.set j (t.step response spurious sys.session).1).map _ = requests
        rw [List.map_set, hr', hT']
        rw [list_set_self _ j _ (by rw [List.getElem?_map, hj]; rfl)]
        exact hmap
      · intro i u hi
        have hi2 : (sys.submitters.set j (t.step response spurious sys.session).1)[i]?
            = some u := hi
        rw [List.getElem?_set] at hi2
        by_cases hji : j = i
        · subst hji
          rw [if_pos rfl, if_pos hjlt] at hi2
          rw [← Option.some.inj hi2]
          exact Submitter.sound_step_self response spurious t _ _ htnt hpoller (hthreads j t hj)
        · rw [if_neg hji] at hi2
          have hi := hi2
          exact Submitter.sound_step_other response spurious t u _ _ htnt
            (System.distinct_requests requests sys hnd hmap i j u t hi hj (Ne.symm hji))
            (hthreads i u hi)
      · exact Poller.sound_of_slot _ _ _
          (fun r hr => Submitter.step_keeps_occupant response spurious t sys.session r hr)
          hpoller
      · intro r hr0
        have hr : (t.step response spurious sys.session).2._request = some r := hr0
        have hmem' : (t.step response spurious sys.session).1 ∈
            sys.submitters.set j (t.step response spurious sys.session).1 :=
          List.mem_set _ j hjlt _
        rcases hc with ⟨_, _, _, _, hs'⟩ | ⟨hs', _⟩
        · rw [hs'] at hr
          exact ⟨_, hmem', by rw [hr']; exact Option.some.inj hr⟩
        · rw [hs'] at hr
          obtain ⟨u, hu, hur⟩ := hslot r hr
          obtain ⟨i, hi⟩ := List.mem_iff_getElem?.mp hu
          by_cases hji : j = i
          · subst hji
            rw [hj] at hi
            rw [← Option.some.inj hi] at hur
            exact ⟨_, hmem', by rw [hr']; exact hur⟩
          · refine ⟨u, ?_, hur⟩
            apply List.getElem?_mem (n := i)
            rw [List.getElem?_set_ne hji]
            exact hi

/-- No action raises the progress of a thread when no call has timed out and
the poller accepts. -/
theorem System.act_progress_le (response : Response)
    (requests : List (RequestPtr × MilliSeconds)) (a : Action) (sys : System)
    (hnd : (requests.map Prod.fst).Nodup) (hs : sys.Sound requests) (hnt : sys.NoTimeout)
    (hpoll : ∀ b, a = Action.poll b → b = true) (i : Nat) :
    (sys.act response a).progressAt i ≤ sys.progressAt i := by
  obtain ⟨hmap, hthreads, hpoller, hslot⟩ := hs
  cases a with
  | start => rw [System.act_start]
  | isAlive => rw [System.act_isAlive]
  | shutdown =>
    rw [System.act_shutdown]
    unfold System.progressAt
    cases hi : sys.submitters[i]? with
    | none => simp [hi]
    | some u =>
      simp only [hi]
      exact Nat.le_of_eq (Submitter.progress_congr u _ _ _ (shutdown_slot_calls sys.session).1)
  | poll b =>
    have hb : b = true := hpoll b rfl
    subst hb
    rw [System.act_poll]
    unfold System.progressAt
    cases hi : sys.submitters[i]? with
    | none => simp [hi]
    | some u => simpa [hi] using (Submitter.progress_pollStep u sys.session sys.poller hpoller).1
  | step j spurious =>
    cases hj : sys.submitters[j]? with
    | none =>
      rw [System.act_step_none response sys j spurious hj]
    | some t =>
      rw [System.act_step_some response sys j spurious t hj]
      have htnt : hasTimedOut t.timeout_ t.elapsed = false := hnt t (List.getElem?_mem hj)
      have hjlt : j < sys.submitters.length := (List.getElem?_eq_some.mp hj).1
      unfold System.progressAt
      simp only [List.getElem?_set]
      by_cases hji : j = i
      · subst hji
        simp only [hjlt, if_true, hj]
        exact Submitter.progress_step_self response spurious t _ _ htnt
      · simp only [hji, if_false]
        cases hi : sys.submitters[i]? with
        | none => exact Nat.le_refl _
        | some u =>
          exact Nat.le_of_eq (Submitter.progress_step_other response spurious t u _ _ htnt
            (System.distinct_requests requests sys hnd hmap i j u t hi hj (Ne.symm hji)))

theorem Submitter.step_args (response : Response) (spurious : Bool) (t : Submitter)
    (s : LocalSession) :
    (t.step response spurious s).1.request_ = t.request_ ∧
    (t.step response spurious s).1.timeout_ = t.timeout_ := by
  unfold Submitter.step
  split <;> (try split) <;> (try split) <;> simp

/-- Every action keeps the request and the timeout of every call in progress. -/
theorem System.act_requests (response : Response) (a : Action) (sys : System) :
    (sys.act response a).submitters.map (fun t => (t.request_, t.timeout_)) =
      sys.submitters.map (fun t => (t.request_, t.timeout_)) := by
  cases a with
  | start => rw [System.act_start]
  | isAlive => rw [System.act_isAlive]
  | shutdown => rw [System.act_shutdown]
  | poll b => rw [System.act_poll]
  | step j spurious =>
    cases hj : sys.submitters[j]? with
    | none => rw [System.act_step_none response sys j spurious hj]
    | some t =>
      rw [System.act_step_some response sys j spurious t hj]
      show (sys.submitters.set j (t.step response spurious sys.session).1).map _ = _
      rw [List.map_set, (Submitter.step_args response spurious t sys.session).1,
        (Submitter.step_args response spurious t sys.session).2]
      exact list_set_self _ j _ (by rw [List.getElem?_map, hj]; rfl)

theorem System.run_requests (response : Response) (schedule : Nat → Action)
    (handler_ : Handler) (requests : List (RequestPtr × MilliSeconds)) (k : Nat) :
    (System.run response schedule k (System.start handler_ requests)).submitters.map
      (fun t => (t.request_, t.timeout_)) = requests := by
  induction k with
  | zero =>
    simp only [System.run, System.start, List.map_map]
    exact List.map_id _
  | succ k ih =>
    show ((System.run response schedule k (System.start handler_ requests)).act response
      (schedule k)).submitters.map _ = _
    rw [System.act_requests, ih]

theorem System.start_sound (handler_ : Handler) (requests : List (RequestPtr × MilliSeconds)) :
    (System.start handler_ requests).Sound requests := by
  refine ⟨System.run_requests (fun _ _ => false) (fun _ => Action.poll true) handler_ requests 0,
    ?_, ?_, ?_⟩
  · intro i t hi
    have hmem := List.getElem?_mem hi
    simp only [System.start, List.mem_map] at hmem
    obtain ⟨q, _, hq⟩ := hmem
    subst hq
    simp [Submitter.Sound, Submitter.enter, System.start, LocalSession.new, callsOn]
  · simp [Poller.Sound, System.start, Poller.start]
  · intro r hr
    simp [System.start, LocalSession.new] at hr

/-- Along a run in which no call times out and the poller accepts, the program
stays sound. -/
theorem System.run_sound (response : Response) (schedule : Nat → Action)
    (handler_ : Handler) (requests : List (RequestPtr × MilliSeconds))
    (hnd : (requests.map Prod.fst).Nodup)
    (hpolls : ∀ k b, schedule k = Action.poll b → b = true)
    (hnt : ∀ k, (System.run response schedule k (System.start handler_ requests)).NoTimeout)
    (k : Nat) :
    (System.run response schedule k (System.start handler_ requests)).Sound requests := by
  induction k with
  | zero => exact System.start_sound handler_ requests
  | succ k ih =>
    exact System.act_sound response requests (schedule k) _ hnd ih (hnt k) (hpolls k)

/-- Along such a run the progress of a thread never grows. -/
theorem System.run_progress_le (response : Response) (schedule : Nat → Action)
    (handler_ : Handler) (requests : List (RequestPtr × MilliSeconds))
    (hnd : (requests.map Prod.fst).Nodup)
    (hpolls : ∀ k b, schedule k = Action.poll b → b = true)
    (hnt : ∀ k, (System.run response schedule k (System.start handler_ requests)).NoTimeout)
    (k d i : Nat) :
    (System.run response schedule (k + d) (System.start handler_ requests)).progressAt i ≤
      (System.run response schedule k (System.start handler_ requests)).progressAt i := by
  induction d with
  | zero => exact Nat.le_refl _
  | succ d ih =>
    refine Nat.le_trans ?_ ih
    exact System.act_progress_le response requests (schedule (k + d)) _ hnd
      (System.run_sound response schedule handler_ requests hnd hpolls hnt (k + d))
      (hnt (k + d)) (hpolls (k + d)) i

/-- Later in such a run either the total progress is smaller or every thread
has the progress it had. -/
theorem System.run_remaining (response : Response) (schedule : Nat → Action)
    (handler_ : Handler) (requests : List (RequestPtr × MilliSeconds))
    (hnd : (requests.map Prod.fst).Nodup)
    (hpolls : ∀ k b, schedule k = Action.poll b → b = true)
    (hnt : ∀ k, (System.run response schedule k (System.start handler_ requests)).NoTimeout)
    (N k d : Nat) :
    (System.run response schedule (k + d) (System.start handler_ requests)).remaining N ≤
      (System.run response schedule k (System.start handler_ requests)).remaining N ∧
    ((System.run response schedule (k + d) (System.start handler_ requests)).remaining N =
        (System.run response schedule k (System.start handler_ requests)).remaining N →
      ∀ i, i < N →
        (System.run response schedule (k + d) (System.start handler_ requests)).progressAt i =
          (System.run response schedule k (System.start handler_ requests)).progressAt i) := by
  have hle : ∀ i ∈ Finset.range N,
      (System.run response schedule (k + d) (System.start handler_ requests)).progressAt i ≤
        (System.run response schedule k (System.start handler_ requests)).progressAt i :=
    fun i _ => System.run_progress_le response schedule handler_ requests hnd hpolls hnt k d i
  refine ⟨Finset.sum_le_sum hle, fun hEq i hi => ?_⟩
  exact (Finset.sum_eq_sum_iff_of_le hle).mp hEq i (Finset.mem_range.mpr hi)

/-- When one thread gains progress by the next action, the total shrinks. -/
theorem System.run_remaining_lt (response : Response) (schedule : Nat → Action)
    (handler_ : Handler) (requests : List (RequestPtr × MilliSeconds))
    (hnd : (requests.map Prod.fst).Nodup)
    (hpolls : ∀ k b, schedule k = Action.poll b → b = true)
    (hnt : ∀ k, (System.run response schedule k (System.start handler_ requests)).NoTimeout)
    (N k i : Nat) (hi : i < N)
    (hlt : (System.run response schedule (k + 1) (System.start handler_ requests)).progressAt i <
      (System.run response schedule k (System.start handler_ requests)).progressAt i) :
    (System.run response schedule (k + 1) (System.start handler_ requests)).remaining N <
      (System.run response schedule k (System.start handler_ requests)).remaining N := by
  apply Finset.sum_lt_sum
  · intro j _
    exact System.run_progress_le response schedule handler_ requests hnd hpolls hnt k 1 j
  · exact ⟨i, Finset.mem_range.mpr hi, hlt⟩

theorem System.progressAt_pos (sys : System) (i : Nat) (h : 0 < sys.progressAt i) :
    ∃ t, sys.submitters[i]? = some t ∧ sys.progressAt i = t.progress sys.session sys.poller := by
  unfold System.progressAt at h ⊢
  cases hi : sys.submitters[i]? with
  | none => rw [hi] at h; exact absurd h (Nat.lt_irrefl 0)
  | some t => exact ⟨t, rfl, rfl⟩

theorem Submitter.progress_le (t : Submitter) (s : LocalSession) (q : Poller) :
    t.progress s q ≤ 8 := by
  have hd := Poller.distance_le q
  unfold Submitter.progress
  split <;> (try split) <;> omega

theorem System.progressAt_le (sys : System) (i : Nat) : sys.progressAt i ≤ 8 := by
  unfold System.progressAt
  split
  · exact Submitter.progress_le _ _ _
  · omega

theorem Poller.distance_pos (q : Poller) : 1 ≤ q.distance := by
  unfold Poller.distance
  split <;> omega

/-- What the progress of a call tells about where it stands. -/
theorem Submitter.progress_cases (t : Submitter) (s : LocalSession) (q : Poller) :
    (t.progress s q = 8 ↔ t.pc = Pc.enqueue) ∧
    ((3 ≤ t.progress s q ∧ t.progress s q ≤ 7) ↔
      (t.pc = Pc.await ∧ s._request = some t.request_)) ∧
    (t.progress s q = 2 ↔ (t.pc = Pc.await ∧ s._request ≠ some t.request_)) ∧
    (t.progress s q = 1 ↔ t.pc = Pc.result) := by
  have hd := Poller.distance_le q
  have hp := Poller.distance_pos q
  cases hq : t.pc with
  | enqueue => simp [Submitter.progress, hq]
  | await =>
    by_cases hs : s._request = some t.request_
    · have hval : t.progress s q = 2 + q.distance := by
        simp [Submitter.progress, hq, hs]
      rw [hval]
      exact ⟨⟨fun h => by omega, fun h => Pc.noConfusion h⟩,
        ⟨fun _ => ⟨rfl, hs⟩, fun _ => by omega⟩,
        ⟨fun h => by omega, fun h => absurd hs h.2⟩,
        ⟨fun h => by omega, fun h => Pc.noConfusion h⟩⟩
    · simp [Submitter.progress, hq, hs]
  | result => simp [Submitter.progress, hq]
  | returned b => simp [Submitter.progress, hq]

/-- A step of a call whose slot no longer holds its request, or that stands at
line 61, brings it nearer to its return. -/
theorem System.step_gains (response : Response) (sys : System) (i : Nat) (spurious : Bool)
    (hnt : sys.NoTimeout) (h : sys.progressAt i = 1 ∨ sys.progressAt i = 2) :
    (sys.act response (Action.step i spurious)).progressAt i < sys.progressAt i := by
  obtain ⟨t, hi, hp⟩ := System.progressAt_pos sys i (by omega)
  have htnt : hasTimedOut t.timeout_ t.elapsed = false := hnt t (List.getElem?_mem hi)
  have hilt : i < sys.submitters.length := (List.getElem?_eq_some.mp hi).1
  rw [System.act_step_some response sys i spurious t hi, hp]
  rw [hp] at h
  unfold System.progressAt
  simp only [List.getElem?_set, hilt, if_true]
  obtain ⟨h8, h37, h2, h1⟩ := Submitter.progress_cases t sys.session sys.poller
  obtain ⟨⟨hr, _⟩, hc⟩ := Submitter.step_cases response spurious t sys.session htnt
  rcases h with h | h
  · have hq := h1.mp h
    rcases hc with ⟨hq2, _, _, _, _⟩ | ⟨hs', hc⟩
    · rw [hq] at hq2; exact Pc.noConfusion hq2
    · rcases hc with ⟨hq2, _⟩ | ⟨hq2, _, _⟩ | ⟨hq2, _, _⟩ | ⟨_, b, hq'⟩ | ⟨b, hq2, _⟩
      · rw [hq] at hq2; exact Pc.noConfusion hq2
      · rw [hq] at hq2; exact Pc.noConfusion hq2
      · rw [hq] at hq2; exact Pc.noConfusion hq2
      · rw [h]; simp [Submitter.progress, hq']
      · rw [hq] at hq2; exact Pc.noConfusion hq2
  · obtain ⟨hq, hl⟩ := h2.mp h
    rcases hc with ⟨hq2, _, _, _, _⟩ | ⟨hs', hc⟩
    · rw [hq] at hq2; exact Pc.noConfusion hq2
    · rcases hc with ⟨hq2, _⟩ | ⟨_, hl2, _⟩ | ⟨_, _, hq'⟩ | ⟨hq2, _⟩ | ⟨b, hq2, _⟩
      · rw [hq] at hq2; exact Pc.noConfusion hq2
      · exact absurd hl2 hl
      · rw [h]; simp [Submitter.progress, hq']
      · rw [hq] at hq2; exact Pc.noConfusion hq2
      · rw [hq] at hq2; exact Pc.noConfusion hq2

/-- A step of the accepting poller brings the call whose request is in the slot
nearer to its return. -/
theorem System.poll_gains (response : Response) (requests : List (RequestPtr × MilliSeconds))
    (sys : System) (hs : sys.Sound requests) (i : Nat)
    (h : 3 ≤ sys.progressAt i ∧ sys.progressAt i ≤ 7) :
    (sys.act response (Action.poll true)).progressAt i < sys.progressAt i := by
  obtain ⟨t, hi, hp⟩ := System.progressAt_pos sys i (by omega)
  rw [hp] at h
  obtain ⟨hq, hl⟩ := (Submitter.progress_cases t sys.session sys.poller).2.1.mp h
  rw [System.act_poll, hp]
  unfold System.progressAt
  simp only [hi]
  exact (Submitter.progress_pollStep t sys.session sys.poller hs.2.2.1).2 hq hl

/-- A step whose compare-exchange does not fail spuriously publishes when the
slot is empty. -/
theorem System.publish_gains (response : Response) (sys : System) (i : Nat)
    (hnt : sys.NoTimeout) (h : sys.progressAt i = 8) (hslot : sys.session._request = none) :
    (sys.act response (Action.step i false)).progressAt i < sys.progressAt i := by
  obtain ⟨t, hi, hp⟩ := System.progressAt_pos sys i (by omega)
  have htnt : hasTimedOut t.timeout_ t.elapsed = false := hnt t (List.getElem?_mem hi)
  have hilt : i < sys.submitters.length := (List.getElem?_eq_some.mp hi).1
  rw [System.act_step_some response sys i false t hi, hp]
  rw [hp] at h
  unfold System.progressAt
  simp only [List.getElem?_set, hilt, if_true]
  rw [h]
  have hq : t.pc = Pc.enqueue := (Submitter.progress_cases t sys.session sys.poller).1.mp h
  have hd := Poller.distance_le sys.poller
  simp only [Submitter.step, hq, htnt, hslot, Submitter.progress]
  simp
  omega

/-- In a sound program an occupied slot holds the request of a call that is
waiting for it. -/
theorem System.occupant_waits (requests : List (RequestPtr × MilliSeconds)) (sys : System)
    (hs : sys.Sound requests) (r : RequestPtr) (hr : sys.session._request = some r) :
    ∃ i, i < requests.length ∧ 3 ≤ sys.progressAt i ∧ sys.progressAt i ≤ 7 := by
  obtain ⟨hmap, hthreads, _, hslot⟩ := hs
  obtain ⟨t, ht, htr⟩ := hslot r hr
  obtain ⟨i, hi⟩ := List.mem_iff_getElem?.mp ht
  have hilt : i < requests.length := by
    rw [← hmap, List.length_map]
    exact (List.getElem?_eq_some.mp hi).1
  refine ⟨i, hilt, ?_⟩
  have hsound := hthreads i t hi
  unfold System.progressAt
  rw [hi]
  simp only
  rw [← htr] at hr
  refine (Submitter.progress_cases t sys.session sys.poller).2.1.mpr ⟨?_, hr⟩
  unfold Submitter.Sound at hsound
  cases hq : t.pc with
  | enqueue => rw [hq] at hsound; exact absurd hr hsound.2
  | await => rfl
  | result => rw [hq] at hsound; exact absurd hr hsound.2
  | returned b => rw [hq] at hsound; exact absurd hr hsound.2

/-- If at a later time, provided no thread has moved meanwhile, the next action
brings some thread nearer to its return, then the total progress shrinks. -/
theorem System.gains_by (response : Response) (schedule : Nat → Action)
    (handler_ : Handler) (requests : List (RequestPtr × MilliSeconds))
    (hnd : (requests.map Prod.fst).Nodup)
    (hpolls : ∀ k b, schedule k = Action.poll b → b = true)
    (hnt : ∀ k, (System.run response schedule k (System.start handler_ requests)).NoTimeout)
    (k k1 : Nat) (hk : k ≤ k1)
    (hgain : (∀ i, i < requests.length →
        (System.run response schedule k1 (System.start handler_ requests)).progressAt i =
          (System.run response schedule k (System.start handler_ requests)).progressAt i) →
      ∃ i, i < requests.length ∧
        (System.run response schedule (k1 + 1) (System.start handler_ requests)).progressAt i <
          (System.run response schedule k1 (System.start handler_ requests)).progressAt i) :
    ∃ k2, k < k2 ∧
      (System.run response schedule k2 (System.start handler_ requests)).remaining
          requests.length <
        (System.run response schedule k (System.start handler_ requests)).remaining
          requests.length := by
  obtain ⟨d, rfl⟩ := Nat.exists_eq_add_of_le hk
  obtain ⟨hle, hpt⟩ :=
    System.run_remaining response schedule handler_ requests hnd hpolls hnt requests.length k d
  by_cases hEq :
      (System.run response schedule (k + d) (System.start handler_ requests)).remaining
          requests.length =
        (System.run response schedule k (System.start handler_ requests)).remaining
          requests.length
  · obtain ⟨i, hi, hlt⟩ := hgain (hpt hEq)
    have := System.run_remaining_lt response schedule handler_ requests hnd hpolls hnt
      requests.length (k + d) i hi hlt
    exact ⟨k + d + 1, by omega, by rw [← hEq]; exact this⟩
  · have hd : d ≠ 0 := by
      intro h0
      subst h0
      exact hEq rfl
    exact ⟨k + d, by omega, Nat.lt_of_le_of_ne hle hEq⟩

/-- While some call has not returned, the total progress shrinks later on. -/
theorem System.eventually_gains (response : Response) (schedule : Nat → Action)
    (handler_ : Handler) (requests : List (RequestPtr × MilliSeconds))
    (hnd : (requests.map Prod.fst).Nodup)
    (hpolls : ∀ k b, schedule k = Action.poll b → b = true)
    (hfairPoll : ∀ k, ∃ k1, k ≤ k1 ∧ schedule k1 = Action.poll true)
    (hfairStep : ∀ i, i < requests.length → ∀ k, ∃ k1, k ≤ k1 ∧ schedule k1 = Action.step i false)
    (hnt : ∀ k, (System.run response schedule k (System.start handler_ requests)).NoTimeout)
    (k : Nat)
    (hpos : 0 < (System.run response schedule k (System.start handler_ requests)).remaining
      requests.length) :
    ∃ k2, k < k2 ∧
      (System.run response schedule k2 (System.start handler_ requests)).remaining
          requests.length <
        (System.run response schedule k (System.start handler_ requests)).remaining
          requests.length := by
  have hnext : ∀ n, System.run response schedule (n + 1) (System.start handler_ requests) =
      (System.run response schedule n (System.start handler_ requests)).act response
        (schedule n) := fun _ => rfl
  by_cases hA : ∃ i, i < requests.length ∧
      ((System.run response schedule k (System.start handler_ requests)).progressAt i = 1 ∨
        (System.run response schedule k (System.start handler_ requests)).progressAt i = 2)
  · obtain ⟨i, hi, hval⟩ := hA
    obtain ⟨k1, hk1, hsched⟩ := hfairStep i hi k
    refine System.gains_by response schedule handler_ requests hnd hpolls hnt k k1 hk1 ?_
    intro hsame
    refine ⟨i, hi, ?_⟩
    rw [hnext, hsched]
    exact System.step_gains response _ i false (hnt k1) (by rw [hsame i hi]; exact hval)
  · by_cases hB : ∃ i, i < requests.length ∧
        3 ≤ (System.run response schedule k (System.start handler_ requests)).progressAt i ∧
        (System.run response schedule k (System.start handler_ requests)).progressAt i ≤ 7
    · obtain ⟨i, hi, hval⟩ := hB
      obtain ⟨k1, hk1, hsched⟩ := hfairPoll k
      refine System.gains_by response schedule handler_ requests hnd hpolls hnt k k1 hk1 ?_
      intro hsame
      refine ⟨i, hi, ?_⟩
      rw [hnext, hsched]
      exact System.poll_gains response requests _
        (System.run_sound response schedule handler_ requests hnd hpolls hnt k1) i
        (by rw [hsame i hi]; exact hval)
    · have hex : ∃ i, i < requests.length ∧
          0 < (System.run response schedule k (System.start handler_ requests)).progressAt i := by
        by_contra hnone
        have hzero : (System.run response schedule k
            (System.start handler_ requests)).remaining requests.length = 0 := by
          apply Finset.sum_eq_zero
          intro i hi
          by_contra hne
          exact hnone ⟨i, Finset.mem_range.mp hi, Nat.pos_of_ne_zero hne⟩
        omega
      obtain ⟨i, hi, hival⟩ := hex
      have hle := System.progressAt_le
        (System.run response schedule k (System.start handler_ requests)) i
      have h4 : (System.run response schedule k
          (System.start handler_ requests)).progressAt i = 8 := by
        have h12 : ¬ ((System.run response schedule k
            (System.start handler_ requests)).progressAt i = 1 ∨
          (System.run response schedule k
            (System.start handler_ requests)).progressAt i = 2) := fun h => hA ⟨i, hi, h⟩
        have h3 : ¬ (3 ≤ (System.run response schedule k
            (System.start handler_ requests)).progressAt i ∧
          (System.run response schedule k
            (System.start handler_ requests)).progressAt i ≤ 7) := fun h => hB ⟨i, hi, h⟩
        omega
      obtain ⟨k1, hk1, hsched⟩ := hfairStep i hi k
      refine System.gains_by response schedule handler_ requests hnd hpolls hnt k k1 hk1 ?_
      intro hsame
      refine ⟨i, hi, ?_⟩
      rw [hnext, hsched]
      refine System.publish_gains response _ i (hnt k1) (by rw [hsame i hi]; exact h4) ?_
      cases hslot : (System.run response schedule k1
          (System.start handler_ requests)).session._request with
      | none => rfl
      | some r =>
        obtain ⟨j, hj, hj3⟩ := System.occupant_waits requests _
          (System.run_sound response schedule handler_ requests hnd hpolls hnt k1) r hslot
        exact absurd ⟨j, hj, by rw [← hsame j hj]; exact hj3⟩ hB

/-- Under a fair schedule the total progress reaches zero. -/
theorem System.eventually_done (response : Response) (schedule : Nat → Action)
    (handler_ : Handler) (requests : List (RequestPtr × MilliSeconds))
    (hnd : (requests.map Prod.fst).Nodup)
    (hpolls : ∀ k b, schedule k = Action.poll b → b = true)
    (hfairPoll : ∀ k, ∃ k1, k ≤ k1 ∧ schedule k1 = Action.poll true)
    (hfairStep : ∀ i, i < requests.length → ∀ k, ∃ k1, k ≤ k1 ∧ schedule k1 = Action.step i false)
    (hnt : ∀ k, (System.run response schedule k (System.start handler_ requests)).NoTimeout)
    (bound k : Nat)
    (hb : (System.run response schedule k (System.start handler_ requests)).remaining
      requests.length ≤ bound) :
    ∃ n, k ≤ n ∧
      (System.run response schedule n (System.start handler_ requests)).remaining
        requests.length = 0 := by
  induction bound generalizing k with
  | zero => exact ⟨k, Nat.le_refl k, Nat.le_zero.mp hb⟩
  | succ bound ih =>
    by_cases hz : (System.run response schedule k (System.start handler_ requests)).remaining
        requests.length = 0
    · exact ⟨k, Nat.le_refl k, hz⟩
    · obtain ⟨k2, hk2, hlt⟩ := System.eventually_gains response schedule handler_ requests hnd
        hpolls hfairPoll hfairStep hnt k (Nat.pos_of_ne_zero hz)
      obtain ⟨n, hn, hzero⟩ := ih k2 (by omega)
      exact ⟨n, by omega, hzero⟩

theorem Submitter.progress_eq_zero (t : Submitter) (s : LocalSession) (q : Poller)
    (h : t.progress s q = 0) : ∃ b, t.pc = Pc.returned b := by
  cases hq : t.pc with
  | enqueue => simp [Submitter.progress, hq] at h
  | await =>
    simp only [Submitter.progress, hq] at h
    split at h <;> omega
  | result => simp [Submitter.progress, hq] at h
  | returned b => exact ⟨b, rfl⟩

/-- With every timeout zero no call ever times out. -/
theorem System.noTimeout_of_zero (response : Response) (schedule : Nat → Action)
    (handler_ : Handler) (requests : List (RequestPtr × MilliSeconds))
    (hzero : ∀ q ∈ requests, q.2 = 0) (k : Nat) :
    (System.run response schedule k (System.start handler_ requests)).NoTimeout := by
  intro t ht
  have hmap := System.run_requests response schedule handler_ requests k
  have hmem : (t.request_, t.timeout_) ∈ requests := by
    rw [← hmap]
    exact List.mem_map.mpr ⟨t, ht, rfl⟩
  have h0 : t.timeout_ = 0 := hzero _ hmem
  rw [h0]
  exact hasTimedOut_zero _

/-- A step of `execute` only adds to the calls recorded in the session. -/
theorem Submitter.step_calls_grow (response : Response) (spurious : Bool) (t : Submitter)
    (s : LocalSession) (c : Call) (h : c ∈ s.calls) :
    c ∈ (t.step response spurious s).2.calls := by
  unfold Submitter.step
  split <;> (try split) <;> (try split) <;> simp [h]

/-- Every action keeps the poller and the session coherent. -/
theorem System.act_coherent (response : Response) (a : Action) (sys : System)
    (h : sys.Coherent) : (sys.act response a).Coherent := by
  obtain ⟨hmade, hpc⟩ := h
  cases a with
  | start => rw [System.act_start]; exact ⟨hmade, hpc⟩
  | isAlive => rw [System.act_isAlive]; exact ⟨hmade, hpc⟩
  | shutdown =>
    rw [System.act_shutdown]
    obtain ⟨h1, h2⟩ := shutdown_slot_calls sys.session
    refine ⟨fun c hc => by rw [h2]; exact hmade c hc, ?_⟩
    simp only [h1]
    exact hpc
  | step j spurious =>
    cases hj : sys.submitters[j]? with
    | none => rw [System.act_step_none response sys j spurious hj]; exact ⟨hmade, hpc⟩
    | some t =>
      rw [System.act_step_some response sys j spurious t hj]
      refine ⟨fun c hc => Submitter.step_calls_grow response spurious t _ c (hmade c hc), ?_⟩
      have hkeep := Submitter.step_keeps_occupant response spurious t sys.session
      cases hq : sys.poller.pc with
      | idle => simp [hq]
      | call r accept => rw [hq] at hpc; simp only [hq]; exact ⟨hkeep r hpc.1, hpc.2⟩
      | flag r => rw [hq] at hpc; simp only [hq]; exact ⟨hkeep r hpc.1, hpc.2⟩
      | clear r => rw [hq] at hpc; simp only [hq]; exact ⟨hkeep r hpc.1, hpc.2⟩
      | leave => simp [hq]
  | poll b =>
    rw [System.act_poll]
    cases hq : sys.poller.pc with
    | idle =>
      cases hs : sys.session._request with
      | none => rw [Poller.step_idle_none b _ _ hq hs]; simp [System.Coherent]
      | some r => rw [Poller.step_idle_some b _ _ r hq hs]; simp [System.Coherent, hs]
    | call r accept =>
      rw [hq] at hpc
      rw [Poller.step_call b _ _ r accept hq]
      cases accept with
      | true => simp [System.Coherent, hpc.1, hpc.2]
      | false => simp [System.Coherent, hpc.1, hpc.2]
    | flag r =>
      rw [hq] at hpc
      rw [Poller.step_flag b _ _ r hq]
      exact ⟨hmade, by simp [hpc.1, hpc.2]⟩
    | clear r =>
      rw [Poller.step_clear b _ _ r hq]
      exact ⟨hmade, by simp⟩
    | leave =>
      rw [Poller.step_leave b _ _ hq]
      exact ⟨hmade, by simp⟩

theorem System.run_coherent (response : Response) (schedule : Nat → Action)
    (handler_ : Handler) (requests : List (RequestPtr × MilliSeconds)) (k : Nat) :
    (System.run response schedule k (System.start handler_ requests)).Coherent := by
  induction k with
  | zero => simp [System.run, System.Coherent, System.start, Poller.start]
  | succ k ih => exact System.act_coherent response (schedule k) _ ih

/-- The steps of the poller, run without any other thread in between, do what
the function `poll` does as a whole: after at most five steps the poller is
outside `poll` again, the session is the one `poll` yields and the value
returned is the one `poll` returns. -/
theorem System.poll_refines (response : Response) (b : Bool) (s : LocalSession)
    (threads : List Submitter) (q : Poller) (hq : q.pc = PollPc.idle) :
    ∃ n, n ≤ 5 ∧
      (System.run response (pollerOnly b) n
        { session := s, poller := q, submitters := threads }).session = (s.poll b).2 ∧
      (System.run response (pollerOnly b) n
        { session := s, poller := q, submitters := threads }).poller.pc = PollPc.idle ∧
      (System.run response (pollerOnly b) n
        { session := s, poller := q, submitters := threads }).poller.result
          = some (s.poll b).1 := by
  cases hs : s._request with
  | none =>
    refine ⟨2, by omega, ?_⟩
    simp [System.run, pollerOnly, System.act, Poller.step, hq, hs, poll_empty b s hs,
      LocalSession.isAlive]
  | some r =>
    cases b with
    | true =>
      refine ⟨5, by omega, ?_⟩
      simp [System.run, pollerOnly, System.act, Poller.step, hq, hs, poll_true_occupied s r hs,
        LocalSession.isAlive]
    | false =>
      refine ⟨4, by omega, ?_⟩
      simp [System.run, pollerOnly, System.act, Poller.step, hq, hs, poll_false_occupied s r hs,
        LocalSession.isAlive]

/-! ## The poll protocol -/

/-- C1: when the mailbox holds a request `r`, `poll(true)` makes exactly one
call on request objects, `r.execute`, and no abort, leaves the mailbox empty,
sets the liveness flag, returns true, leaves the handler and the log alone, and
`isAlive()` is true after every later sequence of actions on the session. -/
theorem poll_true_executes_pending (response : Response) (s : LocalSession) (r : RequestPtr)
    (h : s._request = some r) :
    (s.poll true).2.calls = s.calls ++ [Call.execute r] ∧
    (s.poll true).2._request = none ∧
    (s.poll true).2._isAlive = true ∧
    (s.poll true).1 = true ∧
    (s.poll true).2._handler = s._handler ∧
    (s.poll true).2.log = s.log ∧
    ∀ ops : List Op, (applyAll response ops (s.poll true).2).isAlive = true := by
  rw [poll_true_occupied s r h]
  refine ⟨rfl, rfl, rfl, rfl, rfl, rfl, fun ops => ?_⟩
  exact applyAll_isAlive response ops _ rfl

/-- C1 at the session whose slot holds request 7, followed by a failed poll and
a shutdown. -/
theorem poll_true_executes_pending_witness :
    pendingSession._request = some 7 ∧
    (pendingSession.poll true).2.calls = [Call.execute 7] ∧
    (pendingSession.poll true).2._request = none ∧
    (pendingSession.poll true).1 = true ∧
    (applyAll executedResponse [Op.poll false, Op.shutdown]
      (pendingSession.poll true).2).isAlive = true :=
  have h := poll_true_executes_pending executedResponse pendingSession 7 rfl
  ⟨rfl, h.1, h.2.1, h.2.2.2.1, h.2.2.2.2.2.2 [Op.poll false, Op.shutdown]⟩

/-- C2: when the mailbox holds a request `r`, `poll(false)` makes exactly one
call on request objects, `r.abort`, and no execute, leaves the mailbox empty,
leaves the liveness flag, the handler and the log as they were, and returns
that unchanged flag. -/
theorem poll_false_aborts_pending (s : LocalSession) (r : RequestPtr)
    (h : s._request = some r) :
    (∃ reason, (s.poll false).2.calls = s.calls ++ [Call.abort r reason]) ∧
    (s.poll false).2._request = none ∧
    (s.poll false).2._isAlive = s._isAlive ∧
    (s.poll false).1 = s._isAlive ∧
    (s.poll false).2._handler = s._handler ∧
    (s.poll false).2.log = s.log := by
  rw [poll_false_occupied s r h]
  exact ⟨⟨pollAbortReason, rfl⟩, rfl, rfl, rfl, rfl, rfl⟩

/-- C2 at the session whose slot holds request 7. -/
theorem poll_false_aborts_pending_witness :
    pendingSession._request = some 7 ∧
    (∃ reason, (pendingSession.poll false).2.calls = pendingSession.calls ++ [Call.abort 7 reason]) ∧
    (pendingSession.poll false).2._request = none ∧
    (pendingSession.poll false).1 = false :=
  have h := poll_false_aborts_pending pendingSession 7 rfl
  ⟨rfl, h.1, h.2.1, h.2.2.2.1⟩

/-- C10: on an empty mailbox `poll` is a no-op for either value of
`canAcceptRequest_`: the whole session state, with the record of the calls made
on requests, is unchanged, and the call returns the liveness flag. -/
theorem poll_empty_noop (canAcceptRequest_ : Bool) (s : LocalSession) (h : s._request = none) :
    s.poll canAcceptRequest_ = (s._isAlive, s) ∧
    (s.poll canAcceptRequest_).2.calls = s.calls ∧
    (s.poll canAcceptRequest_).2._request = none ∧
    (s.poll canAcceptRequest_).2._isAlive = s._isAlive ∧
    (s.poll canAcceptRequest_).1 = s.isAlive := by
  rw [poll_empty canAcceptRequest_ s h]
  exact ⟨rfl, rfl, h, rfl, rfl⟩

/-- C10 at the freshly constructed session. -/
theorem poll_empty_noop_witness :
    freshSession._request = none ∧
    freshSession.poll true = (false, freshSession) ∧
    freshSession.poll false = (false, freshSession) :=
  ⟨rfl, (poll_empty_noop true freshSession rfl).1, (poll_empty_noop false freshSession rfl).1⟩

/-! ## The liveness flag -/

/-- C7: the liveness flag is false in a freshly constructed session; after any
sequence of actions (steps of `execute` calls, `poll`, `start`, `isAlive`,
`shutdown`) it is true exactly when some earlier `poll(true)` found the mailbox
occupied; and once it is true it is true after any further actions. -/
theorem isAlive_iff_polled_occupied (response : Response) (handler_ : Handler) (ops : List Op) :
    (LocalSession.new handler_).isAlive = false ∧
    ((applyAll response ops (LocalSession.new handler_)).isAlive = true ↔
      ∃ pre post, ops = pre ++ Op.poll true :: post ∧
        (applyAll response pre (LocalSession.new handler_))._request.isSome = true) ∧
    (∀ more : List Op, (applyAll response ops (LocalSession.new handler_)).isAlive = true →
      (applyAll response (ops ++ more) (LocalSession.new handler_)).isAlive = true) := by
  refine ⟨rfl, ⟨?_, ?_⟩, ?_⟩
  · induction ops using List.reverseRecOn with
    | nil => intro h; simp [applyAll, LocalSession.new, LocalSession.isAlive] at h
    | append_singleton ops op ih =>
      intro h
      rw [applyAll_append, applyAll_cons] at h
      simp only [applyAll, List.foldl_nil] at h
      cases hprev : (applyAll response ops (LocalSession.new handler_))._isAlive with
      | true =>
        obtain ⟨pre, post, hops, hocc⟩ := ih hprev
        exact ⟨pre, post ++ [op], by simp [hops], hocc⟩
      | false =>
        have := Op.apply_raises_isAlive response op _ hprev h
        exact ⟨ops, [], by simp [this.1], this.2⟩
  · rintro ⟨pre, post, hops, hocc⟩
    subst hops
    rw [applyAll_append, applyAll_cons]
    apply applyAll_isAlive
    obtain ⟨r, hr⟩ := Option.isSome_iff_exists.mp hocc
    simp [Op.apply, poll_true_occupied _ r hr]
  · intro more h
    rw [applyAll_append]
    exact applyAll_isAlive response more _ h

/-- C7 at a run of three actions from a fresh session: a step of `execute(7, 0)`
publishes request 7, `poll(true)` finds it, and after `shutdown` the flag is
true, so some `poll(true)` of the run found the mailbox occupied. -/
theorem isAlive_iff_polled_occupied_witness :
    (applyAll executedResponse [Op.submit (Submitter.enter 7 0) false, Op.poll true, Op.shutdown]
      (LocalSession.new { pollInterval := 10 })).isAlive = true ∧
    ∃ pre post,
      [Op.submit (Submitter.enter 7 0) false, Op.poll true, Op.shutdown]
        = pre ++ Op.poll true :: post ∧
      (applyAll executedResponse pre (LocalSession.new { pollInterval := 10 }))._request.isSome
        = true :=
  have h := isAlive_iff_polled_occupied executedResponse { pollInterval := 10 }
    [Op.submit (Submitter.enter 7 0) false, Op.poll true, Op.shutdown]
  ⟨by decide, h.2.1.mp (by decide)⟩

/-! ## The mailbox -/

/-- C9: in every state the program reaches from a fresh session, under any
schedule of single steps of the submitter threads and of the poller thread and
of calls of `start`, `isAlive` and `shutdown`, and for every next action. The
slot goes from empty to occupied only by a step of `execute` whose
compare-exchange succeeds: the step stands at the enqueue loop, has not timed
out, installs its own request and makes no call on a request. The slot stops
holding an occupant `r` only by the store of line 83 of `poll`, which leaves it
empty: the poller stands there having loaded `r` and having made in this call
of `poll` exactly one call on request objects, `execute` or `abort` on `r`,
recorded in the session before the store, and the store makes no call. The
call of line 78 or 81 itself is made while the slot still holds `r`. A step of
`execute` leaves an occupied slot as it is, and a step of `poll` leaves an
empty slot empty. -/
theorem mailbox_transitions (response : Response) (schedule : Nat → Action)
    (handler_ : Handler) (requests : List (RequestPtr × MilliSeconds)) (k : Nat) (a : Action) :
    (∀ r, (System.run response schedule k (System.start handler_ requests)).session._request
        = none →
      ((System.run response schedule k (System.start handler_ requests)).act response
        a).session._request = some r →
      ∃ i t, a = Action.step i false ∧
        (System.run response schedule k (System.start handler_ requests)).submitters[i]?
          = some t ∧
        t.request_ = r ∧ t.pc = Pc.enqueue ∧ hasTimedOut t.timeout_ t.elapsed = false ∧
        (t.step response false
          (System.run response schedule k (System.start handler_ requests)).session).1.trace
          = t.trace ++ [Event.published] ∧
        ((System.run response schedule k (System.start handler_ requests)).act response
          a).session.calls =
          (System.run response schedule k (System.start handler_ requests)).session.calls) ∧
    (∀ r, (System.run response schedule k (System.start handler_ requests)).session._request
        = some r →
      ((System.run response schedule k (System.start handler_ requests)).act response
        a).session._request ≠ some r →
      ((System.run response schedule k (System.start handler_ requests)).act response
        a).session._request = none ∧
      ∃ b, a = Action.poll b ∧
        (System.run response schedule k (System.start handler_ requests)).poller.pc
          = PollPc.clear r ∧
        ((System.run response schedule k (System.start handler_ requests)).poller.made
            = [Call.execute r] ∨
          (System.run response schedule k (System.start handler_ requests)).poller.made
            = [Call.abort r pollAbortReason]) ∧
        (∀ c ∈ (System.run response schedule k (System.start handler_ requests)).poller.made,
          c ∈ (System.run response schedule k (System.start handler_ requests)).session.calls) ∧
        ((System.run response schedule k (System.start handler_ requests)).act response
          a).session.calls =
          (System.run response schedule k (System.start handler_ requests)).session.calls) ∧
    (∀ b r accept, a = Action.poll b →
      (System.run response schedule k (System.start handler_ requests)).poller.pc
        = PollPc.call r accept →
      (System.run response schedule k (System.start handler_ requests)).session._request
        = some r ∧
      ((System.run response schedule k (System.start handler_ requests)).act response
        a).session._request = some r ∧
      ((System.run response schedule k (System.start handler_ requests)).act response
        a).session.calls =
        (System.run response schedule k (System.start handler_ requests)).session.calls ++
          [if accept then Call.execute r else Call.abort r pollAbortReason] ∧
      ((System.run response schedule k (System.start handler_ requests)).act response
        a).poller.made = [if accept then Call.execute r else Call.abort r pollAbortReason]) ∧
    (∀ i spurious r, a = Action.step i spurious →
      (System.run response schedule k (System.start handler_ requests)).session._request
        = some r →
      ((System.run response schedule k (System.start handler_ requests)).act response
        a).session._request = some r) ∧
    (∀ b, a = Action.poll b →
      (System.run response schedule k (System.start handler_ requests)).session._request
        = none →
      ((System.run response schedule k (System.start handler_ requests)).act response
        a).session._request = none) := by
  have hco := System.run_coherent response schedule handler_ requests k
  generalize System.run response schedule k (System.start handler_ requests) = sys at hco ⊢
  obtain ⟨hmade, hpc⟩ := hco
  refine ⟨?_, ?_, ?_, ?_, ?_⟩
  · intro r h0 h1
    cases a with
    | start => rw [System.act_start, h0] at h1; exact absurd h1 (by simp)
    | isAlive => rw [System.act_isAlive, h0] at h1; exact absurd h1 (by simp)
    | shutdown =>
      rw [System.act_shutdown] at h1
      have h2 : sys.session.shutdown._request = some r := h1
      rw [(shutdown_slot_calls sys.session).1, h0] at h2
      exact absurd h2 (by simp)
    | poll b =>
      rw [System.act_poll] at h1
      have h2 : (sys.poller.step b sys.session).2._request = some r := h1
      exfalso
      cases hq : sys.poller.pc with
      | idle => rw [Poller.step_idle_none b _ _ hq h0, h0] at h2; exact absurd h2 (by simp)
      | call x accept => rw [hq] at hpc; rw [h0] at hpc; exact absurd hpc.1 (by simp)
      | flag x => rw [hq] at hpc; rw [h0] at hpc; exact absurd hpc.1 (by simp)
      | clear x => rw [hq] at hpc; rw [h0] at hpc; exact absurd hpc.1 (by simp)
      | leave => rw [Poller.step_leave b _ _ hq, h0] at h2; exact absurd h2 (by simp)
    | step j spurious =>
      cases hj : sys.submitters[j]? with
      | none =>
        rw [System.act_step_none response sys j spurious hj, h0] at h1
        exact absurd h1 (by simp)
      | some t =>
        rw [System.act_step_some response sys j spurious t hj] at h1 ⊢
        have h2 : (t.step response spurious sys.session).2._request = some r := h1
        simp only [Submitter.step] at h2 ⊢
        split at h2
        · split at h2
          · simp [h0] at h2
          · split at h2
            · next hq hto hcas =>
              simp only [Option.some.injEq] at h2
              refine ⟨j, t, by rw [hcas.2], hj, h2, hq, by simpa using hto, ?_, ?_⟩
              · simp [hq, hto, h0]
              · simp [hq, hto, h0, hcas.2]
            · simp [h0] at h2
        · split at h2
          · simp [h0] at h2
          · split at h2 <;> simp [h0] at h2
        · split at h2 <;> simp [h0] at h2
        · simp [h0] at h2
  · intro r h0 h1
    cases a with
    | start => rw [System.act_start] at h1; exact absurd h0 h1
    | isAlive => rw [System.act_isAlive] at h1; exact absurd h0 h1
    | shutdown =>
      rw [System.act_shutdown] at h1
      have h2 : sys.session.shutdown._request ≠ some r := h1
      rw [(shutdown_slot_calls sys.session).1] at h2
      exact absurd h0 h2
    | step j spurious =>
      cases hj : sys.submitters[j]? with
      | none => rw [System.act_step_none response sys j spurious hj] at h1; exact absurd h0 h1
      | some t =>
        rw [System.act_step_some response sys j spurious t hj] at h1
        exact absurd (Submitter.step_keeps_occupant response spurious t sys.session r h0) h1
    | poll b =>
      rw [System.act_poll] at h1 ⊢
      have h2 : (sys.poller.step b sys.session).2._request ≠ some r := h1
      cases hq : sys.poller.pc with
      | idle => rw [Poller.step_idle_some b _ _ r hq h0] at h2; exact absurd h0 h2
      | call x accept =>
        rw [Poller.step_call b _ _ x accept hq] at h2
        split at h2 <;> exact absurd h0 h2
      | flag x => rw [Poller.step_flag b _ _ x hq] at h2; exact absurd h0 h2
      | leave => rw [Poller.step_leave b _ _ hq] at h2; exact absurd h0 h2
      | clear x =>
        rw [hq] at hpc
        have hx : x = r := Option.some.inj (hpc.1.symm.trans h0)
        subst hx
        rw [Poller.step_clear b _ _ x hq]
        exact ⟨rfl, b, rfl, rfl, hpc.2, hmade, rfl⟩
  · intro b r accept ha hq
    subst ha
    rw [hq] at hpc
    rw [System.act_poll, Poller.step_call b _ _ r accept hq]
    cases accept with
    | true => simp [hpc.1, hpc.2]
    | false => simp [hpc.1, hpc.2]
  · intro i spurious r ha h0
    subst ha
    cases hj : sys.submitters[i]? with
    | none => rw [System.act_step_none response sys i spurious hj]; exact h0
    | some t =>
      rw [System.act_step_some response sys i spurious t hj]
      exact Submitter.step_keeps_occupant response spurious t sys.session r h0
  · intro b ha h0
    subst ha
    rw [System.act_poll]
    cases hq : sys.poller.pc with
    | idle => rw [Poller.step_idle_none b _ _ hq h0]; exact h0
    | call x accept => rw [hq] at hpc; rw [h0] at hpc; exact absurd hpc.1 (by simp)
    | flag x => rw [hq] at hpc; rw [h0] at hpc; exact absurd hpc.1 (by simp)
    | clear x => rw [hq] at hpc; rw [h0] at hpc; exact absurd hpc.1 (by simp)
    | leave => rw [Poller.step_leave b _ _ hq]; exact h0

/-- C9 at the round-robin run of two submitters with requests 7 and 8: the
first action, a step of submitter 0, fills the empty slot with request 7; the
action after eleven, the store of the poller, empties the slot holding request
7, the poller having made the one call `execute` on it. -/
theorem mailbox_transitions_witness :
    (∃ i t, Action.step 0 false = Action.step i false ∧
      (System.run executedResponse roundRobin 0
        (System.start { pollInterval := 10 } [(7, 0), (8, 0)])).submitters[i]? = some t ∧
      t.request_ = 7 ∧ t.pc = Pc.enqueue) ∧
    ((System.run executedResponse roundRobin 11
      (System.start { pollInterval := 10 } [(7, 0), (8, 0)])).act executedResponse
        (Action.poll true)).session._request = none ∧
    (System.run executedResponse roundRobin 11
      (System.start { pollInterval := 10 } [(7, 0), (8, 0)])).poller.pc = PollPc.clear 7 ∧
    ((System.run executedResponse roundRobin 11
        (System.start { pollInterval := 10 } [(7, 0), (8, 0)])).poller.made
          = [Call.execute 7] ∨
      (System.run executedResponse roundRobin 11
        (System.start { pollInterval := 10 } [(7, 0), (8, 0)])).poller.made
          = [Call.abort 7 pollAbortReason]) := by
  obtain ⟨i, t, ha, hi, hr, hq, _⟩ :=
    (mailbox_transitions executedResponse roundRobin { pollInterval := 10 } [(7, 0), (8, 0)] 0
      (Action.step 0 false)).1 7 (by decide!) (by decide!)
  obtain ⟨hnone, b, _, hpc, hmade, _⟩ :=
    (mailbox_transitions executedResponse roundRobin { pollInterval := 10 } [(7, 0), (8, 0)] 11
      (Action.poll true)).2.1 7 (by decide!) (by decide!)
  exact ⟨⟨i, t, ha, hi, hr, hq⟩, hnone, hpc, hmade⟩

/-! ## The submit protocol -/

/-- C5: with a nonzero timeout `T` and poll interval `p`, whatever the other
threads do and however often the compare-exchange fails, a call of
`execute(r, T)` sleeps at most `T / p + 1` times over both loops together, its
elapsed time is that number of sleeps times `p` and never exceeds
`(T / p + 1) * p`, which is at most `T + p`, and the call has returned after
`T / p + 4` of its steps. -/
theorem execute_timeout_spans_both_phases (response : Response) (env : Nat → List Op)
    (weak : Nat → Bool) (s : LocalSession) (r : RequestPtr) (T : MilliSeconds)
    (hT : 0 < T) (hp : 0 < s._handler.pollInterval) :
    (∀ n,
      (runExecute response env weak n (Submitter.enter r T, s)).1.trace.count Event.slept ≤
        T / s._handler.pollInterval + 1 ∧
      (runExecute response env weak n (Submitter.enter r T, s)).1.elapsed =
        (runExecute response env weak n (Submitter.enter r T, s)).1.trace.count Event.slept *
          s._handler.pollInterval ∧
      (runExecute response env weak n (Submitter.enter r T, s)).1.elapsed ≤
        (T / s._handler.pollInterval + 1) * s._handler.pollInterval) ∧
    (T / s._handler.pollInterval + 1) * s._handler.pollInterval ≤ T + s._handler.pollInterval ∧
    (∀ n, T / s._handler.pollInterval + 4 ≤ n →
      ∃ b, (runExecute response env weak n (Submitter.enter r T, s)).1.pc = Pc.returned b) := by
  refine ⟨fun n => ?_, ceiling_bound T _, fun n hn =>
    runExecute_terminates response env weak s r T hT hp n hn⟩
  have he := runExecute_elapsed response env weak s r T n
  have hk := sleeps_bound T s._handler.pollInterval _ hp (by rw [← he.1]; exact he.2 hT)
  refine ⟨hk, he.1, ?_⟩
  rw [he.1]
  exact Nat.mul_le_mul_right _ hk

/-- C5 at timeout 100 ms and poll interval 10 ms, the slot held by request 7
throughout: the call for request 8 has returned after 14 steps with at most
110 ms elapsed. -/
theorem execute_timeout_spans_both_phases_witness :
    0 < 100 ∧ 0 < pendingSession._handler.pollInterval ∧
    (runExecute executedResponse quiet strong 14 (Submitter.enter 8 100, pendingSession)).1.elapsed
      ≤ 110 ∧
    ∃ b, (runExecute executedResponse quiet strong 14
      (Submitter.enter 8 100, pendingSession)).1.pc = Pc.returned b :=
  have h := execute_timeout_spans_both_phases executedResponse quiet strong pendingSession 8 100
    (by decide) (by decide)
  ⟨by decide, by decide, (h.1 14).2.2, h.2.2 14 (by decide)⟩

/-- C3: with a nonzero timeout `T` and poll interval `p`, from any session state
(slot empty or occupied), when no other thread polls, a call of `execute(r, T)`
has returned after `T / p + 4` of its steps; it returns false, the call itself
called `abort("timed out")` once and never `response()`, and its elapsed time at
return is more than `T` and at most `T + p`. When moreover no other thread
submits the same request, the calls made on `r` by anyone since the call began
are exactly that one `abort("timed out")`. -/
theorem execute_times_out_without_poll (response : Response) (env : Nat → List Op)
    (weak : Nat → Bool) (s : LocalSession) (r : RequestPtr) (T : MilliSeconds)
    (hT : 0 < T) (hp : 0 < s._handler.pollInterval)
    (hnp : ∀ k, ∀ op ∈ env k, op.isPoll = false)
    (n : Nat) (hn : T / s._handler.pollInterval + 4 ≤ n) :
    (runExecute response env weak n (Submitter.enter r T, s)).1.pc = Pc.returned false ∧
    (runExecute response env weak n (Submitter.enter r T, s)).1.trace.count Event.aborted = 1 ∧
    Event.responseRead ∉ (runExecute response env weak n (Submitter.enter r T, s)).1.trace ∧
    T ≤ (runExecute response env weak n (Submitter.enter r T, s)).1.elapsed ∧
    T < (runExecute response env weak n (Submitter.enter r T, s)).1.elapsed ∧
    (runExecute response env weak n (Submitter.enter r T, s)).1.elapsed ≤
      T + s._handler.pollInterval ∧
    ((∀ k, ∀ op ∈ env k, op.submits r = false) →
      callsOn r (runExecute response env weak n (Submitter.enter r T, s)).2.calls =
        callsOn r s.calls ++ [Call.abort r "timed out"]) := by
  obtain ⟨b, hb⟩ := runExecute_terminates response env weak s r T hT hp n hn
  have hel := (runExecute_elapsed response env weak s r T n).2 hT
  obtain ⟨_, _, hrd, hpc⟩ := runExecute_timeoutInv response env weak s r T hnp n
  rw [hb] at hpc
  obtain ⟨hfalse, hcount, hto⟩ := hpc
  have hlt : T < (runExecute response env weak n (Submitter.enter r T, s)).1.elapsed := by
    rw [hasTimedOut_pos T _ hT] at hto
    simpa using hto
  subst hfalse
  refine ⟨hb, hcount, List.count_eq_zero.mp hrd, Nat.le_of_lt hlt, hlt, hel, fun hown => ?_⟩
  obtain ⟨_, _, hcalls⟩ := runExecute_callsInv response env weak s r T hnp hown n
  rw [hb] at hcalls
  simpa [hto, timedOutReason] using hcalls

/-- C3 at the scenario of the spec: poll interval 10 ms, timeout 100 ms, no
poll; the call returns false with elapsed time between 100 and 110 ms and one
`abort("timed out")` on its request. -/
theorem execute_times_out_without_poll_witness :
    0 < 100 ∧ 0 < freshSession._handler.pollInterval ∧
    (∀ k, ∀ op ∈ quiet k, op.isPoll = false) ∧
    100 / freshSession._handler.pollInterval + 4 ≤ 14 ∧
    (runExecute executedResponse quiet strong 14 (Submitter.enter 7 100, freshSession)).1.pc
      = Pc.returned false ∧
    100 ≤ (runExecute executedResponse quiet strong 14
      (Submitter.enter 7 100, freshSession)).1.elapsed ∧
    (runExecute executedResponse quiet strong 14 (Submitter.enter 7 100, freshSession)).1.elapsed
      ≤ 110 ∧
    callsOn 7 (runExecute executedResponse quiet strong 14
      (Submitter.enter 7 100, freshSession)).2.calls = [Call.abort 7 "timed out"] :=
  have hq1 : ∀ k, ∀ op ∈ quiet k, op.isPoll = false := fun _ _ h => nomatch h
  have hq2 : ∀ k, ∀ op ∈ quiet k, op.submits 7 = false := fun _ _ h => nomatch h
  have h := execute_times_out_without_poll executedResponse quiet strong freshSession 7 100
    (by decide) (by decide) hq1 14 (by decide)
  ⟨by decide, by decide, hq1, by decide, h.1, h.2.2.2.1, h.2.2.2.2.2.1, h.2.2.2.2.2.2 hq2⟩

/-- C6: whenever a call of `execute(r, T)` has returned, whatever the other
threads did: if it had not timed out at line 61, the value returned is the
boolean value of `r.response()` at the return and the call itself made no call
of abort; if it had timed out, the value returned is false. -/
theorem execute_returns_response (response : Response) (env : Nat → List Op)
    (weak : Nat → Bool) (s : LocalSession) (r : RequestPtr) (T : MilliSeconds)
    (n : Nat) (b : Bool)
    (hb : (runExecute response env weak n (Submitter.enter r T, s)).1.pc = Pc.returned b) :
    (hasTimedOut T (runExecute response env weak n (Submitter.enter r T, s)).1.elapsed = false →
      b = response (runExecute response env weak n (Submitter.enter r T, s)).2.calls r ∧
      Event.aborted ∉ (runExecute response env weak n (Submitter.enter r T, s)).1.trace) ∧
    (hasTimedOut T (runExecute response env weak n (Submitter.enter r T, s)).1.elapsed = true →
      b = false) := by
  obtain ⟨_, _, hpc⟩ := runExecute_returnInv response env weak s r T n
  rw [hb] at hpc
  constructor
  · intro hto
    rcases hpc with h | h
    · rw [hto] at h
      exact absurd h.1 (by decide)
    · exact ⟨h.2.1, List.count_eq_zero.mp h.2.2⟩
  · intro hto
    rcases hpc with h | h
    · exact h.2.1
    · rw [hto] at h
      exact absurd h.1 (by decide)

/-- C6 where the poller rejects the request: `poll(false)` runs before step 2
of `execute(7, 0)`, the response stays falsy, and the call returns false
without having timed out or aborted. -/
theorem execute_returns_response_witness :
    (runExecute executedResponse (pollOnceAt 2 false) strong 4
      (Submitter.enter 7 0, freshSession)).1.pc = Pc.returned false ∧
    hasTimedOut 0 (runExecute executedResponse (pollOnceAt 2 false) strong 4
      (Submitter.enter 7 0, freshSession)).1.elapsed = false ∧
    false = executedResponse (runExecute executedResponse (pollOnceAt 2 false) strong 4
      (Submitter.enter 7 0, freshSession)).2.calls 7 ∧
    Event.aborted ∉ (runExecute executedResponse (pollOnceAt 2 false) strong 4
      (Submitter.enter 7 0, freshSession)).1.trace :=
  have hb : (runExecute executedResponse (pollOnceAt 2 false) strong 4
      (Submitter.enter 7 0, freshSession)).1.pc = Pc.returned false := by decide
  have h := execute_returns_response executedResponse (pollOnceAt 2 false) strong freshSession
    7 0 4 false hb
  ⟨hb, by decide, (h.1 (by decide)).1, (h.1 (by decide)).2⟩

/-- C8 fails on a timeout: poll interval 10 ms, timeout 5 ms, empty mailbox, no
other thread; `execute(7, 5)` has returned false after 4 steps and the mailbox
still holds request 7. -/
theorem execute_timeout_leaves_request_in_mailbox :
    (runExecute executedResponse quiet strong 4 (Submitter.enter 7 5, freshSession)).1.pc
      = Pc.returned false ∧
    (runExecute executedResponse quiet strong 4 (Submitter.enter 7 5, freshSession)).2._request
      = some 7 := by
  decide

/-- C8 as amended: whenever a call of `execute(r, T)` has returned without
having timed out, and no other thread submitted the same request, the mailbox
does not hold `r`. -/
theorem execute_returns_after_handoff (response : Response) (env : Nat → List Op)
    (weak : Nat → Bool) (s : LocalSession) (r : RequestPtr) (T : MilliSeconds)
    (hown : ∀ k, ∀ op ∈ env k, op.submits r = false) (n : Nat) (b : Bool)
    (hb : (runExecute response env weak n (Submitter.enter r T, s)).1.pc = Pc.returned b)
    (hto : hasTimedOut T (runExecute response env weak n (Submitter.enter r T, s)).1.elapsed
      = false) :
    (runExecute response env weak n (Submitter.enter r T, s)).2._request ≠ some r := by
  obtain ⟨_, _, hpc⟩ := runExecute_handoffInv response env weak s r T hown n
  rw [hb] at hpc
  rcases hpc with h | h
  · rw [hto] at h
    exact absurd h (by decide)
  · exact h

/-- C8 as amended where the poller accepts the request: `poll(true)` runs before
step 3 of `execute(7, 100)`, the call returns true and the mailbox is empty. -/
theorem execute_returns_after_handoff_witness :
    (∀ k, ∀ op ∈ pollOnceAt 3 true k, op.submits 7 = false) ∧
    (runExecute executedResponse (pollOnceAt 3 true) strong 5
      (Submitter.enter 7 100, freshSession)).1.pc = Pc.returned true ∧
    hasTimedOut 100 (runExecute executedResponse (pollOnceAt 3 true) strong 5
      (Submitter.enter 7 100, freshSession)).1.elapsed = false ∧
    (runExecute executedResponse (pollOnceAt 3 true) strong 5
      (Submitter.enter 7 100, freshSession)).2._request ≠ some 7 :=
  have hown : ∀ k, ∀ op ∈ pollOnceAt 3 true k, op.submits 7 = false := by
    intro k op h
    unfold pollOnceAt at h
    split at h
    · rw [List.mem_singleton.mp h]; rfl
    · exact nomatch h
  have hb : (runExecute executedResponse (pollOnceAt 3 true) strong 5
      (Submitter.enter 7 100, freshSession)).1.pc = Pc.returned true := by decide
  ⟨hown, hb, by decide,
    execute_returns_after_handoff executedResponse (pollOnceAt 3 true) strong freshSession
      7 100 hown 5 true hb (by decide)⟩

/-- C4: with timeout zero the elapsed-time check never fires, for any elapsed
value. So for every poll interval and whatever the other threads do, a call of
`execute(r, 0)` never calls abort, and when it has returned, then at some step
`i` it stood at the enqueue loop and its compare-exchange put `r` in the empty
slot, at a later step `j` it stood at the await loop and loaded from the slot
something other than `r`, and between the two another thread called `poll`
while the slot held `r`. In particular the call never returns when no other
thread polls. -/
theorem execute_zero_timeout_waits_for_poll (response : Response) (env : Nat → List Op)
    (weak : Nat → Bool) (s : LocalSession) (r : RequestPtr) :
    (∀ e, hasTimedOut 0 e = false) ∧
    (∀ n, Event.aborted ∉ (runExecute response env weak n (Submitter.enter r 0, s)).1.trace) ∧
    (∀ n b, (runExecute response env weak n (Submitter.enter r 0, s)).1.pc = Pc.returned b →
      ∃ i j, i < j ∧ j < n ∧
        ((runExecute response env weak i (Submitter.enter r 0, s)).1.pc = Pc.enqueue ∧
          (applyAll response (env i)
            (runExecute response env weak i (Submitter.enter r 0, s)).2)._request = none ∧
          weak i = false ∧
          (runExecute response env weak (i + 1) (Submitter.enter r 0, s)).2._request = some r) ∧
        ((runExecute response env weak j (Submitter.enter r 0, s)).1.pc = Pc.await ∧
          (applyAll response (env j)
            (runExecute response env weak j (Submitter.enter r 0, s)).2)._request ≠ some r) ∧
        ∃ k, i < k ∧ k ≤ j ∧ ∃ pre canAcceptRequest_ post,
          env k = pre ++ Op.poll canAcceptRequest_ :: post ∧
          (applyAll response pre
            (runExecute response env weak k (Submitter.enter r 0, s)).2)._request = some r) ∧
    ((∀ k, ∀ op ∈ env k, op.isPoll = false) →
      ∀ n b, (runExecute response env weak n (Submitter.enter r 0, s)).1.pc ≠ Pc.returned b) := by
  have hist : ∀ n b,
      (runExecute response env weak n (Submitter.enter r 0, s)).1.pc = Pc.returned b →
      ∃ i j, i < j ∧ j < n ∧ PublishedAt response env weak (Submitter.enter r 0, s) i ∧
        ClearedAt response env weak (Submitter.enter r 0, s) j ∧
        ∃ k, i < k ∧ k ≤ j ∧ PolledAt response env weak (Submitter.enter r 0, s) k :=
    fun n b hb => (runExecute_zeroInv response env weak s r n).2 (Or.inr ⟨b, hb⟩)
  refine ⟨hasTimedOut_zero, fun n => ?_, fun n b hb => ?_, fun hnp n b hb => ?_⟩
  · obtain ⟨_, _, hpc⟩ := runExecute_returnInv response env weak s r 0 n
    apply List.count_eq_zero.mp
    cases hq : (runExecute response env weak n (Submitter.enter r 0, s)).1.pc with
    | returned b =>
      rw [hq] at hpc
      rcases hpc with h | h
      · rw [hasTimedOut_zero] at h
        exact absurd h.1 (by decide)
      · exact h.2.2
    | enqueue => rw [hq] at hpc; exact hpc
    | await => rw [hq] at hpc; exact hpc
    | result => rw [hq] at hpc; exact hpc
  · obtain ⟨i, j, hij, hjn, hpub, hclr, k, hik, hkj, hk⟩ := hist n b hb
    exact ⟨i, j, hij, hjn, hpub, hclr, k, hik, hkj, hk⟩
  · obtain ⟨i, j, hij, hjn, hpub, hclr, k, hik, hkj, pre, c, post, hk, _⟩ := hist n b hb
    have hmem : Op.poll c ∈ env k := by rw [hk]; simp
    exact absurd (hnp k _ hmem) (by simp [Op.isPoll])

/-- C4 at the second scenario of the spec: `execute(7, 0)` on the fresh session,
`poll(true)` before its step 2; the call has returned true after 4 steps, with
a publishing step and a later step that saw the slot cleared. -/
theorem execute_zero_timeout_waits_for_poll_witness :
    (runExecute executedResponse (pollOnceAt 2 true) strong 4
      (Submitter.enter 7 0, freshSession)).1.pc = Pc.returned true ∧
    ∃ i j, i < j ∧ j < 4 ∧
      (runExecute executedResponse (pollOnceAt 2 true) strong (i + 1)
        (Submitter.enter 7 0, freshSession)).2._request = some 7 ∧
      (applyAll executedResponse (pollOnceAt 2 true j)
        (runExecute executedResponse (pollOnceAt 2 true) strong j
          (Submitter.enter 7 0, freshSession)).2)._request ≠ some 7 := by
  have hb : (runExecute executedResponse (pollOnceAt 2 true) strong 4
      (Submitter.enter 7 0, freshSession)).1.pc = Pc.returned true := by decide
  obtain ⟨i, j, hij, hj, hpub, hclr, _⟩ :=
    (execute_zero_timeout_waits_for_poll executedResponse (pollOnceAt 2 true) strong
      freshSession 7).2.2.1 4 true hb
  exact ⟨hb, i, j, hij, hj, hpub.2.2.2, hclr.2⟩

/-! ## The abort reason of `poll`, `shutdown`, and timing -/

/-- C11 evaluated on the code: with request 7 in the slot, `poll(false)` aborts
it with the reason text of source line 81, which spells "dectected", and not
with the text "xpedite detected active session - multiple sessions not
supported". -/
theorem poll_false_reason_as_spelled :
    (pendingSession.poll false).2.calls =
      [Call.abort 7 "xpedite dectected active session - multiple sessions not supported"] ∧
    (pendingSession.poll false).2.calls ≠
      [Call.abort 7 "xpedite detected active session - multiple sessions not supported"] := by
  decide

/-- C12: a call of `shutdown` writes its line once when the liveness flag is
true and nothing when it is false, and leaves the mailbox, the flag, the
handler and the calls on requests as they were; so after any number `n` of
calls the state but for the log is the initial one, the log has grown by `n`
lines or by none, and the next call writes what the first one wrote. -/
theorem shutdown_idempotent (s : LocalSession) :
    s.shutdown.log = s.log ++ (if s._isAlive then [shutdownLogLine] else []) ∧
    s.shutdown._request = s._request ∧
    s.shutdown._isAlive = s._isAlive ∧
    s.shutdown._handler = s._handler ∧
    s.shutdown.calls = s.calls ∧
    ∀ n : Nat,
      (LocalSession.shutdown^[n] s)._request = s._request ∧
      (LocalSession.shutdown^[n] s)._isAlive = s._isAlive ∧
      (LocalSession.shutdown^[n] s)._handler = s._handler ∧
      (LocalSession.shutdown^[n] s).calls = s.calls ∧
      (LocalSession.shutdown^[n] s).log =
        s.log ++ List.replicate (if s._isAlive then n else 0) shutdownLogLine ∧
      (LocalSession.shutdown^[n] s).shutdown.log =
        (LocalSession.shutdown^[n] s).log ++ (if s._isAlive then [shutdownLogLine] else []) := by
  have one : ∀ u : LocalSession,
      u.shutdown.log = u.log ++ (if u._isAlive then [shutdownLogLine] else []) ∧
      u.shutdown._request = u._request ∧ u.shutdown._isAlive = u._isAlive ∧
      u.shutdown._handler = u._handler ∧ u.shutdown.calls = u.calls := by
    intro u
    unfold LocalSession.shutdown LocalSession.isAlive
    cases h : u._isAlive <;> simp [h]
  have many : ∀ n : Nat,
      (LocalSession.shutdown^[n] s)._request = s._request ∧
      (LocalSession.shutdown^[n] s)._isAlive = s._isAlive ∧
      (LocalSession.shutdown^[n] s)._handler = s._handler ∧
      (LocalSession.shutdown^[n] s).calls = s.calls ∧
      (LocalSession.shutdown^[n] s).log =
        s.log ++ List.replicate (if s._isAlive then n else 0) shutdownLogLine := by
    intro n
    induction n with
    | zero => simp
    | succ n ih =>
      rw [Function.iterate_succ_apply']
      obtain ⟨h1, h2, h3, h4, h5⟩ := ih
      obtain ⟨o1, o2, o3, o4, o5⟩ := one (LocalSession.shutdown^[n] s)
      refine ⟨o2.trans h1, o3.trans h2, o4.trans h3, o5.trans h4, ?_⟩
      rw [o1, h5, h2]
      cases h : s._isAlive <;> simp [List.replicate_succ']
  refine ⟨(one s).1, (one s).2.1, (one s).2.2.1, (one s).2.2.2.1, (one s).2.2.2.2, fun n => ?_⟩
  obtain ⟨h1, h2, h3, h4, h5⟩ := many n
  refine ⟨h1, h2, h3, h4, h5, ?_⟩
  rw [(one _).1, h2]

/-- C12 at a session that has served a request and at a fresh one: three calls
of `shutdown` write three lines in the first and none in the second. -/
theorem shutdown_idempotent_witness :
    (LocalSession.shutdown^[3] (pendingSession.poll true).2).log =
      [shutdownLogLine, shutdownLogLine, shutdownLogLine] ∧
    (LocalSession.shutdown^[3] freshSession).log = [] ∧
    (LocalSession.shutdown^[3] (pendingSession.poll true).2)._isAlive = true :=
  ⟨((shutdown_idempotent (pendingSession.poll true).2).2.2.2.2.2 3).2.2.2.2.1,
   ((shutdown_idempotent freshSession).2.2.2.2.2 3).2.2.2.2.1,
   ((shutdown_idempotent (pendingSession.poll true).2).2.2.2.2.2 3).2.1⟩

/-- C13 fails when the request is resolved before the first load of the await
loop: poll interval 10 ms, `execute(7, 100)`, `poll(true)` right after the
publish; the call has returned true after 3 steps without a single sleep, with
elapsed time 0. -/
theorem execute_completes_without_sleep :
    0 < freshSession._handler.pollInterval ∧
    (runExecute executedResponse (pollOnceAt 1 true) strong 3
      (Submitter.enter 7 100, freshSession)).1.pc = Pc.returned true ∧
    (runExecute executedResponse (pollOnceAt 1 true) strong 3
      (Submitter.enter 7 100, freshSession)).1.elapsed = 0 ∧
    ¬ (freshSession._handler.pollInterval ≤
      (runExecute executedResponse (pollOnceAt 1 true) strong 3
        (Submitter.enter 7 100, freshSession)).1.elapsed) := by
  decide

/-- C13 as amended: at every time the elapsed time of a call of `execute` is a
whole number of poll intervals, one for each sleep, whether the call goes on to
complete or to time out; whenever the call finds itself timed out it has slept
at least once, so its elapsed time is at least one poll interval; and a call
that observes completion may return without any sleep: with poll interval
10 ms, `execute(7, 100)` and `poll(true)` right after the publish, the call
returns true with elapsed time 0. -/
theorem execute_timeout_after_one_sleep (response : Response) (env : Nat → List Op)
    (weak : Nat → Bool) (s : LocalSession) (r : RequestPtr) (T : MilliSeconds) :
    (∀ n, (runExecute response env weak n (Submitter.enter r T, s)).1.elapsed =
      (runExecute response env weak n (Submitter.enter r T, s)).1.trace.count Event.slept *
        s._handler.pollInterval) ∧
    (∀ n, hasTimedOut T (runExecute response env weak n (Submitter.enter r T, s)).1.elapsed
        = true →
      1 ≤ (runExecute response env weak n (Submitter.enter r T, s)).1.trace.count Event.slept ∧
      s._handler.pollInterval ≤
        (runExecute response env weak n (Submitter.enter r T, s)).1.elapsed) ∧
    (0 < freshSession._handler.pollInterval ∧
      (runExecute executedResponse (pollOnceAt 1 true) strong 3
        (Submitter.enter 7 100, freshSession)).1.pc = Pc.returned true ∧
      (runExecute executedResponse (pollOnceAt 1 true) strong 3
        (Submitter.enter 7 100, freshSession)).1.trace.count Event.slept = 0 ∧
      (runExecute executedResponse (pollOnceAt 1 true) strong 3
        (Submitter.enter 7 100, freshSession)).1.elapsed = 0) := by
  refine ⟨fun n => (runExecute_elapsed response env weak s r T n).1, fun n hto => ?_, by decide⟩
  have he := (runExecute_elapsed response env weak s r T n).1
  have hpos : 0 < (runExecute response env weak n (Submitter.enter r T, s)).1.elapsed := by
    unfold hasTimedOut at hto
    split at hto
    · exact absurd hto (by decide)
    · exact Nat.lt_of_le_of_lt (Nat.zero_le T) (by simpa using hto)
  have hk : 1 ≤ (runExecute response env weak n
      (Submitter.enter r T, s)).1.trace.count Event.slept := by
    rcases Nat.eq_zero_or_pos ((runExecute response env weak n
      (Submitter.enter r T, s)).1.trace.count Event.slept) with h0 | h0
    · rw [he, h0, Nat.zero_mul] at hpos
      exact absurd hpos (Nat.lt_irrefl 0)
    · exact h0
  refine ⟨hk, ?_⟩
  rw [he]
  exact Nat.le_mul_of_pos_left _ hk

/-- C13 as amended at poll interval 10 ms: without a poll and with timeout 5 ms
the call has timed out after one sleep, with elapsed time 10 ms; with timeout
zero and a poll before its step 3 it has completed after two sleeps, with
elapsed time 20 ms. -/
theorem execute_timeout_after_one_sleep_witness :
    hasTimedOut 5 (runExecute executedResponse quiet strong 4
      (Submitter.enter 7 5, freshSession)).1.elapsed = true ∧
    1 ≤ (runExecute executedResponse quiet strong 4
      (Submitter.enter 7 5, freshSession)).1.trace.count Event.slept ∧
    freshSession._handler.pollInterval ≤
      (runExecute executedResponse quiet strong 4 (Submitter.enter 7 5, freshSession)).1.elapsed ∧
    (runExecute executedResponse (pollOnceAt 3 true) strong 5
      (Submitter.enter 7 0, freshSession)).1.pc = Pc.returned true ∧
    (runExecute executedResponse (pollOnceAt 3 true) strong 5
      (Submitter.enter 7 0, freshSession)).1.elapsed =
      (runExecute executedResponse (pollOnceAt 3 true) strong 5
        (Submitter.enter 7 0, freshSession)).1.trace.count Event.slept *
          freshSession._handler.pollInterval ∧
    (runExecute executedResponse (pollOnceAt 3 true) strong 5
      (Submitter.enter 7 0, freshSession)).1.elapsed = 20 :=
  have hto : hasTimedOut 5 (runExecute executedResponse quiet strong 4
      (Submitter.enter 7 5, freshSession)).1.elapsed = true := by decide
  have h := (execute_timeout_after_one_sleep executedResponse quiet strong freshSession 7 5).2.1
    4 hto
  ⟨hto, h.1, h.2, by decide,
    (execute_timeout_after_one_sleep executedResponse (pollOnceAt 3 true) strong
      freshSession 7 0).1 5, by decide⟩

/-- C15: whenever a call of `execute(r, T)` stands at the head of the await loop
with its elapsed time past the nonzero timeout, its next two steps abort the
request with "timed out" and return false, whatever the slot holds and whatever
was called on `r` before, so also when the poller has executed `r` and cleared
the slot during the last sleep. There is such a run: poll interval 10 ms,
timeout 5 ms, `poll(true)` during the first sleep; request 7 receives execute
and then abort, its response is truthy, and `execute` returns false. -/
theorem execute_timeout_precedes_completion (response : Response) (env : Nat → List Op)
    (weak : Nat → Bool) (s : LocalSession) (r : RequestPtr) (T : MilliSeconds) :
    (∀ n, (runExecute response env weak n (Submitter.enter r T, s)).1.pc = Pc.await →
      hasTimedOut T (runExecute response env weak n (Submitter.enter r T, s)).1.elapsed = true →
      (runExecute response env weak (n + 2) (Submitter.enter r T, s)).1.pc = Pc.returned false ∧
      (runExecute response env weak (n + 2) (Submitter.enter r T, s)).1.trace =
        (runExecute response env weak n (Submitter.enter r T, s)).1.trace ++ [Event.aborted] ∧
      (runExecute response env weak (n + 2) (Submitter.enter r T, s)).2.calls =
        (applyAll response (env (n + 1)) (applyAll response (env n)
          (runExecute response env weak n (Submitter.enter r T, s)).2)).calls ++
          [Call.abort r "timed out"]) ∧
    (0 < 5 ∧
      (runExecute executedResponse (pollOnceAt 2 true) strong 4
        (Submitter.enter 7 5, freshSession)).1.pc = Pc.returned false ∧
      (runExecute executedResponse (pollOnceAt 2 true) strong 4
        (Submitter.enter 7 5, freshSession)).2.calls =
          [Call.execute 7, Call.abort 7 "timed out"] ∧
      (runExecute executedResponse (pollOnceAt 2 true) strong 4
        (Submitter.enter 7 5, freshSession)).2._request = none ∧
      executedResponse (runExecute executedResponse (pollOnceAt 2 true) strong 4
        (Submitter.enter 7 5, freshSession)).2.calls 7 = true) := by
  refine ⟨fun n hpc hto => ?_, by decide⟩
  have hf := runExecute_frame response env weak n (Submitter.enter r T, s)
  have hr : (runExecute response env weak n (Submitter.enter r T, s)).1.request_ = r := hf.1
  have hT : (runExecute response env weak n (Submitter.enter r T, s)).1.timeout_ = T := hf.2.1
  have h1 : runExecute response env weak (n + 1) (Submitter.enter r T, s) =
      ({ (runExecute response env weak n (Submitter.enter r T, s)).1 with pc := Pc.result },
        applyAll response (env n) (runExecute response env weak n (Submitter.enter r T, s)).2) := by
    show tick response (env n) (weak n) _ = _
    rw [tick_await response (env n) (weak n) _ hpc, hT, hto]
    simp
  have h2 : runExecute response env weak (n + 2) (Submitter.enter r T, s) =
      tick response (env (n + 1)) (weak (n + 1))
        (runExecute response env weak (n + 1) (Submitter.enter r T, s)) := rfl
  rw [h2, h1, tick_result response (env (n + 1)) (weak (n + 1)) _ rfl]
  simp [hT, hto, hr, timedOutReason]

/-- C15 at the run of its example: after two steps the call stands at the await
loop with 10 ms elapsed against a timeout of 5 ms, the poller having executed
request 7 meanwhile; two steps later it has aborted the request and returned
false. -/
theorem execute_timeout_precedes_completion_witness :
    (runExecute executedResponse (pollOnceAt 2 true) strong 2
      (Submitter.enter 7 5, freshSession)).1.pc = Pc.await ∧
    hasTimedOut 5 (runExecute executedResponse (pollOnceAt 2 true) strong 2
      (Submitter.enter 7 5, freshSession)).1.elapsed = true ∧
    (applyAll executedResponse (pollOnceAt 2 true 2)
      (runExecute executedResponse (pollOnceAt 2 true) strong 2
        (Submitter.enter 7 5, freshSession)).2).calls = [Call.execute 7] ∧
    (runExecute executedResponse (pollOnceAt 2 true) strong 4
      (Submitter.enter 7 5, freshSession)).1.pc = Pc.returned false :=
  have hpc : (runExecute executedResponse (pollOnceAt 2 true) strong 2
      (Submitter.enter 7 5, freshSession)).1.pc = Pc.await := by decide
  have hto : hasTimedOut 5 (runExecute executedResponse (pollOnceAt 2 true) strong 2
      (Submitter.enter 7 5, freshSession)).1.elapsed = true := by decide
  ⟨hpc, hto, by decide,
    ((execute_timeout_precedes_completion executedResponse (pollOnceAt 2 true) strong
      freshSession 7 5).1 2 hpc hto).1⟩

/-! ## Many submitters and one poller -/

/-- C14: `requests.length` submitter threads each call `execute` once, on
distinct requests, on a fresh session, and one poller thread calls `poll(true)`
over and over; every thread moves by single steps (the poller: load, call of
`execute`, flag write, store, return) and the steps interleave by any schedule
in which the poller steps again and again, every submitter gets again and again
a step whose compare-exchange does not fail spuriously, and no call ever has
its elapsed time past its timeout. Then from some time on every call has
returned, the calls made on each request are exactly one `execute`, and the
mailbox is empty. At every time of the run each request has been called at most
once, by `execute`, and a request in the mailbox belongs to a call at its await
loop; two submitters that have published and whose requests are not executed
yet are the same submitter, and two submitters whose request is in the mailbox
are the same, so the mailbox never holds two requests. -/
theorem every_request_executed_once (response : Response) (schedule : Nat → Action)
    (handler_ : Handler) (requests : List (RequestPtr × MilliSeconds))
    (hnd : (requests.map Prod.fst).Nodup)
    (hpolls : ∀ k b, schedule k = Action.poll b → b = true)
    (hfairPoll : ∀ k, ∃ k1, k ≤ k1 ∧ schedule k1 = Action.poll true)
    (hfairStep : ∀ i, i < requests.length → ∀ k, ∃ k1, k ≤ k1 ∧ schedule k1 = Action.step i false)
    (hnt : ∀ k, (System.run response schedule k (System.start handler_ requests)).NoTimeout) :
    (∃ n, ∀ m, n ≤ m →
      (∀ t ∈ (System.run response schedule m (System.start handler_ requests)).submitters,
        ∃ b, t.pc = Pc.returned b) ∧
      (∀ q ∈ requests,
        callsOn q.1 (System.run response schedule m (System.start handler_ requests)).session.calls
          = [Call.execute q.1]) ∧
      (System.run response schedule m (System.start handler_ requests)).session._request = none) ∧
    (∀ k, ∀ t ∈ (System.run response schedule k (System.start handler_ requests)).submitters,
      (callsOn t.request_
          (System.run response schedule k (System.start handler_ requests)).session.calls = [] ∨
        callsOn t.request_
          (System.run response schedule k (System.start handler_ requests)).session.calls
            = [Call.execute t.request_]) ∧
      ((System.run response schedule k (System.start handler_ requests)).session._request
          = some t.request_ → t.pc = Pc.await)) ∧
    (∀ k, ∀ t ∈ (System.run response schedule k (System.start handler_ requests)).submitters,
      ∀ u ∈ (System.run response schedule k (System.start handler_ requests)).submitters,
      (t.pc = Pc.await →
        callsOn t.request_
          (System.run response schedule k (System.start handler_ requests)).session.calls = [] →
        u.pc = Pc.await →
        callsOn u.request_
          (System.run response schedule k (System.start handler_ requests)).session.calls = [] →
        t = u) ∧
      ((System.run response schedule k (System.start handler_ requests)).session._request
          = some t.request_ →
        (System.run response schedule k (System.start handler_ requests)).session._request
          = some u.request_ →
        t = u)) := by
  have hsound := System.run_sound response schedule handler_ requests hnd hpolls hnt
  have hthread : ∀ k, ∀ t ∈ (System.run response schedule k
      (System.start handler_ requests)).submitters,
      t.Sound (System.run response schedule k (System.start handler_ requests)).session
        (System.run response schedule k (System.start handler_ requests)).poller := by
    intro k t ht
    obtain ⟨i, hi⟩ := List.mem_iff_getElem?.mp ht
    exact (hsound k).2.1 i t hi
  have hsame : ∀ k, ∀ t ∈ (System.run response schedule k
      (System.start handler_ requests)).submitters,
      ∀ u ∈ (System.run response schedule k (System.start handler_ requests)).submitters,
      t.request_ = u.request_ → t = u := by
    intro k t ht u hu hEq
    obtain ⟨i, hi⟩ := List.mem_iff_getElem?.mp ht
    obtain ⟨j, hj⟩ := List.mem_iff_getElem?.mp hu
    by_cases hij : i = j
    · subst hij
      rw [hi] at hj
      exact Option.some.inj hj
    · exact absurd hEq (System.distinct_requests requests _ hnd (hsound k).1 i j t u hi hj hij)
  refine ⟨?_, ?_, ?_⟩
  · obtain ⟨n, _, hzero⟩ := System.eventually_done response schedule handler_ requests hnd
      hpolls hfairPoll hfairStep hnt _ 0 (Nat.le_refl _)
    refine ⟨n, fun m hm => ?_⟩
    obtain ⟨d, rfl⟩ := Nat.exists_eq_add_of_le hm
    have hle := (System.run_remaining response schedule handler_ requests hnd hpolls hnt
      requests.length n d).1
    have hz : (System.run response schedule (n + d) (System.start handler_ requests)).remaining
        requests.length = 0 := by omega
    have hall : ∀ i, i < requests.length →
        (System.run response schedule (n + d) (System.start handler_ requests)).progressAt i
          = 0 := by
      intro i hi
      exact (Finset.sum_eq_zero_iff.mp hz) i (Finset.mem_range.mpr hi)
    have hret : ∀ t ∈ (System.run response schedule (n + d)
        (System.start handler_ requests)).submitters, ∃ b, t.pc = Pc.returned b := by
      intro t ht
      obtain ⟨i, hi⟩ := List.mem_iff_getElem?.mp ht
      have hilt : i < requests.length := by
        rw [← (hsound (n + d)).1, List.length_map]
        exact (List.getElem?_eq_some.mp hi).1
      have h0 := hall i hilt
      unfold System.progressAt at h0
      rw [hi] at h0
      exact Submitter.progress_eq_zero t _ _ h0
    refine ⟨hret, ?_, ?_⟩
    · intro q hq
      rw [← (hsound (n + d)).1] at hq
      obtain ⟨t, ht, htq⟩ := List.mem_map.mp hq
      obtain ⟨b, hb⟩ := hret t ht
      have hs := hthread (n + d) t ht
      unfold Submitter.Sound at hs
      rw [hb] at hs
      rw [← htq]
      exact hs.1
    · cases hslot : (System.run response schedule (n + d)
          (System.start handler_ requests)).session._request with
      | none => rfl
      | some r =>
        obtain ⟨j, hj, hj3, _⟩ := System.occupant_waits requests _ (hsound (n + d)) r hslot
        rw [hall j hj] at hj3
        exact absurd hj3 (by decide)
  · intro k t ht
    have hs := hthread k t ht
    unfold Submitter.Sound at hs
    cases hq : t.pc with
    | enqueue =>
      rw [hq] at hs
      exact ⟨Or.inl hs.1, fun h => absurd h hs.2⟩
    | await =>
      rw [hq] at hs
      rcases hs with hs | hs | hs
      · exact ⟨Or.inl hs.2.2, fun _ => rfl⟩
      · exact ⟨Or.inr hs.2.2, fun _ => rfl⟩
      · exact ⟨Or.inr hs.2, fun _ => rfl⟩
    | result =>
      rw [hq] at hs
      exact ⟨Or.inr hs.1, fun h => absurd h hs.2⟩
    | returned b =>
      rw [hq] at hs
      exact ⟨Or.inr hs.1, fun h => absurd h hs.2⟩
  · intro k t ht u hu
    refine ⟨fun htq htc huq huc => ?_, fun h1 h2 => ?_⟩
    · have hst := hthread k t ht
      have hsu := hthread k u hu
      unfold Submitter.Sound at hst hsu
      rw [htq] at hst
      rw [huq] at hsu
      have slotT : (System.run response schedule k
          (System.start handler_ requests)).session._request = some t.request_ := by
        rcases hst with h | h | h
        · exact h.1
        · exact h.1
        · rw [htc] at h; exact absurd h.2 (by simp)
      have slotU : (System.run response schedule k
          (System.start handler_ requests)).session._request = some u.request_ := by
        rcases hsu with h | h | h
        · exact h.1
        · exact h.1
        · rw [huc] at h; exact absurd h.2 (by simp)
      exact hsame k t ht u hu (Option.some.inj (slotT.symm.trans slotU))
    · exact hsame k t ht u hu (Option.some.inj (h1.symm.trans h2))

/-- C14 for two submitters with requests 7 and 8 and timeout zero under the
round-robin schedule: from some time on both calls have returned and each
request has been executed exactly once; after 36 actions this is so. -/
theorem every_request_executed_once_witness :
    ([((7 : RequestPtr), (0 : MilliSeconds)), (8, 0)].map Prod.fst).Nodup ∧
    (∀ k b, roundRobin k = Action.poll b → b = true) ∧
    (∀ k, ∃ k1, k ≤ k1 ∧ roundRobin k1 = Action.poll true) ∧
    (∀ i, i < [((7 : RequestPtr), (0 : MilliSeconds)), (8, 0)].length →
      ∀ k, ∃ k1, k ≤ k1 ∧ roundRobin k1 = Action.step i false) ∧
    (∀ k, (System.run executedResponse roundRobin k
      (System.start { pollInterval := 10 } [(7, 0), (8, 0)])).NoTimeout) ∧
    (∃ n, ∀ m, n ≤ m →
      (∀ t ∈ (System.run executedResponse roundRobin m
          (System.start { pollInterval := 10 } [(7, 0), (8, 0)])).submitters,
        ∃ b, t.pc = Pc.returned b) ∧
      (∀ q ∈ [((7 : RequestPtr), (0 : MilliSeconds)), (8, 0)],
        callsOn q.1 (System.run executedResponse roundRobin m
          (System.start { pollInterval := 10 } [(7, 0), (8, 0)])).session.calls
          = [Call.execute q.1]) ∧
      (System.run executedResponse roundRobin m
        (System.start { pollInterval := 10 } [(7, 0), (8, 0)])).session._request = none) ∧
    (System.run executedResponse roundRobin 36
      (System.start { pollInterval := 10 } [(7, 0), (8, 0)])).session.calls
        = [Call.execute 7, Call.execute 8] := by
  have hnd : ([((7 : RequestPtr), (0 : MilliSeconds)), (8, 0)].map Prod.fst).Nodup := by decide
  have hpolls : ∀ k b, roundRobin k = Action.poll b → b = true := by
    intro k b h
    unfold roundRobin at h
    split at h
    · exact Action.noConfusion h
    · split at h
      · exact Action.noConfusion h
      · exact (Action.poll.inj h).symm
  have hfairPoll : ∀ k, ∃ k1, k ≤ k1 ∧ roundRobin k1 = Action.poll true := by
    intro k
    refine ⟨3 * k + 2, by omega, ?_⟩
    have h2 : (3 * k + 2) % 3 = 2 := by omega
    simp [roundRobin, h2]
  have hfairStep : ∀ i, i < [((7 : RequestPtr), (0 : MilliSeconds)), (8, 0)].length →
      ∀ k, ∃ k1, k ≤ k1 ∧ roundRobin k1 = Action.step i false := by
    intro i hi k
    have hi2 : i = 0 ∨ i = 1 := by
      simp only [List.length_cons, List.length_nil] at hi
      omega
    rcases hi2 with rfl | rfl
    · refine ⟨3 * k, by omega, ?_⟩
      have h0 : (3 * k) % 3 = 0 := by omega
      simp [roundRobin, h0]
    · refine ⟨3 * k + 1, by omega, ?_⟩
      have h1 : (3 * k + 1) % 3 = 1 := by omega
      simp [roundRobin, h1]
  have hnt := System.noTimeout_of_zero executedResponse roundRobin { pollInterval := 10 }
    [(7, 0), (8, 0)] (by decide)
  have hcalls : (System.run executedResponse roundRobin 36
      (System.start { pollInterval := 10 } [(7, 0), (8, 0)])).session.calls
        = [Call.execute 7, Call.execute 8] := by
    decide!
  exact ⟨hnd, hpolls, hfairPoll, hfairStep, hnt,
    (every_request_executed_once executedResponse roundRobin { pollInterval := 10 }
      [(7, 0), (8, 0)] hnd hpolls hfairPoll hfairStep hnt).1, hcalls⟩

end xpedite.framework.session
